import Mathlib

/-!
Verification of the transaction-analytics engine of `payouto-bank-analyser`
(`src/app/_store/useAnalysisStore.ts` and the analysis types module).

Shallow embedding conventions:

* JavaScript numbers are modelled as exact rationals (`Frac`, an unnormalised
  numerator/denominator pair) plus the non-finite values `NaN`/`±Infinity`
  (`JSNum`).  IEEE-754 rounding and overflow of intermediate arithmetic are not
  modelled; every amount reaching arithmetic here comes from `parseMoney` on a
  decimal string, where rounding is irrelevant to the verified claims.
* JavaScript strings are Lean `String`s; comparison operators (`<`, `<=`,
  `localeCompare`) are modelled as lexicographic comparison of code points
  (`lexLt`/`lexLe`), which matches the UTF-16 comparison for the BMP characters
  occurring here.
* `Array.prototype.sort` is modelled by an insertion sort with the comparator's
  reflexive relation.  The claims below never depend on the order of
  comparator-equal elements.
* `new Date(...)`/`setDate`/`toISOString` round trips (`dateAddDays`) are
  modelled by proleptic-Gregorian day arithmetic (`toRD`/`fromRD`), which is
  what the calendar-date round trip computes for valid dates.  On an invalid
  date string JavaScript throws a `RangeError` inside `toISOString`; the model
  returns `""` there, and every theorem that touches this path carries a
  validity hypothesis keeping the model and the program aligned.
* The final `new Date(str)` fallback of the date normaliser is
  implementation-defined in JavaScript; the model makes it fail (`none`).  All
  concrete inputs used in closed theorems below either match an explicit
  branch or are the empty string, which short-circuits before the fallback.
-/

/-- Exact fraction standing in for a finite JavaScript number.  The
denominator is kept positive by every construction used in the pipeline;
no normalisation happens (JS numbers are not normalised fractions either). -/
structure Frac where
  num : Int
  den : Int
  deriving DecidableEq, Repr

namespace Frac

def ofInt (n : Int) : Frac := ⟨n, 1⟩

def zero : Frac := ofInt 0

def add (a b : Frac) : Frac := ⟨a.num * b.den + b.num * a.den, a.den * b.den⟩

def sub (a b : Frac) : Frac := ⟨a.num * b.den - b.num * a.den, a.den * b.den⟩

def mul (a b : Frac) : Frac := ⟨a.num * b.num, a.den * b.den⟩

/-- Division; only ever used with a divisor whose numerator is positive. -/
def div (a b : Frac) : Frac := ⟨a.num * b.den, a.den * b.num⟩

/-- Numeric equality of fractions (cross multiplication). -/
def eqv (a b : Frac) : Prop := a.num * b.den = b.num * a.den

/-- Numeric order; characterises `≤` when both denominators are positive,
which holds for every fraction produced by the pipeline. -/
def le (a b : Frac) : Prop := a.num * b.den ≤ b.num * a.den

instance (a b : Frac) : Decidable (eqv a b) := by
  unfold eqv; infer_instance

instance (a b : Frac) : Decidable (le a b) := by
  unfold le; infer_instance

theorem add_zero_right (a : Frac) : add a zero = a := by
  simp [add, zero, ofInt]

theorem zero_add_left (a : Frac) : add zero a = ⟨a.num, a.den⟩ := by
  simp [add, zero, ofInt]

end Frac

/-- A JavaScript number: a finite value, `NaN`, or a signed infinity. -/
inductive JSNum where
  | fin (q : Frac)
  | nan
  | inf (neg : Bool)
  deriving DecidableEq, Repr

namespace JSNum

/-- `Number.isFinite`. -/
def isFinite : JSNum → Bool
  | .fin _ => true
  | .nan => false
  | .inf _ => false

/-- JavaScript truthiness of a number (`!x` is true exactly on `0` and `NaN`). -/
def truthy : JSNum → Bool
  | .fin q => decide (q.num ≠ 0)
  | .nan => false
  | .inf _ => true

end JSNum

/-! ### Characters and lexicographic string order -/

/-- Decimal digit character of a value below 10. -/
def dchar : Nat → Char
  | 0 => '0' | 1 => '1' | 2 => '2' | 3 => '3' | 4 => '4'
  | 5 => '5' | 6 => '6' | 7 => '7' | 8 => '8' | 9 => '9'
  | _ => '*'

def isDig (c : Char) : Bool :=
  c = '0' || c = '1' || c = '2' || c = '3' || c = '4' ||
  c = '5' || c = '6' || c = '7' || c = '8' || c = '9'

def digitVal (c : Char) : Nat :=
  if c = '0' then 0 else if c = '1' then 1 else if c = '2' then 2 else
  if c = '3' then 3 else if c = '4' then 4 else if c = '5' then 5 else
  if c = '6' then 6 else if c = '7' then 7 else if c = '8' then 8 else
  if c = '9' then 9 else 10

/-- ASCII lower-casing of one character (the fragment of
`String.prototype.toLowerCase` relevant to this code base). -/
def asciiLower (c : Char) : Char :=
  match c with
  | 'A' => 'a' | 'B' => 'b' | 'C' => 'c' | 'D' => 'd' | 'E' => 'e'
  | 'F' => 'f' | 'G' => 'g' | 'H' => 'h' | 'I' => 'i' | 'J' => 'j'
  | 'K' => 'k' | 'L' => 'l' | 'M' => 'm' | 'N' => 'n' | 'O' => 'o'
  | 'P' => 'p' | 'Q' => 'q' | 'R' => 'r' | 'S' => 's' | 'T' => 't'
  | 'U' => 'u' | 'V' => 'v' | 'W' => 'w' | 'X' => 'x' | 'Y' => 'y'
  | 'Z' => 'z' | other => other

def lowerL (l : List Char) : List Char := l.map asciiLower

/-- JS whitespace (the ASCII part of `\s`, which is all the inputs use). -/
def isWs (c : Char) : Bool := c = ' ' || c = '\t' || c = '\n' || c = '\r'

/-- Strict lexicographic order on code points, JS `s1 < s2`. -/
def lexLt : List Char → List Char → Bool
  | [], [] => false
  | [], _ :: _ => true
  | _ :: _, [] => false
  | a :: as, b :: bs =>
    if a.toNat < b.toNat then true
    else if a.toNat = b.toNat then lexLt as bs
    else false

/-- Lexicographic order on code points, JS `s1 <= s2`. -/
def lexLe : List Char → List Char → Bool
  | [], _ => true
  | _ :: _, [] => false
  | a :: as, b :: bs =>
    if a.toNat < b.toNat then true
    else if a.toNat = b.toNat then lexLe as bs
    else false

def strLt (s t : String) : Bool := lexLt s.data t.data

def strLe (s t : String) : Bool := lexLe s.data t.data

theorem lexLe_refl (l : List Char) : lexLe l l = true := by
  induction l with
  | nil => rfl
  | cons a t ih => simp [lexLe, ih]

theorem lexLt_irrefl (l : List Char) : lexLt l l = false := by
  induction l with
  | nil => rfl
  | cons a t ih => simp [lexLt, ih]

theorem lexLe_total (l m : List Char) : lexLe l m = true ∨ lexLe m l = true := by
  induction l generalizing m with
  | nil => left; rfl
  | cons a t ih =>
    cases m with
    | nil => right; rfl
    | cons b u =>
      rcases Nat.lt_trichotomy a.toNat b.toNat with h | h | h
      · left; simp [lexLe, h]
      · rcases ih u with hh | hh
        · left; simp [lexLe, h, hh]
        · right; simp [lexLe, h.symm, hh]
      · right; simp [lexLe, h]

theorem lexLe_trans {a b c : List Char} (h1 : lexLe a b = true)
    (h2 : lexLe b c = true) : lexLe a c = true := by
  induction a generalizing b c with
  | nil => rfl
  | cons x xs ih =>
    cases b with
    | nil => simp [lexLe] at h1
    | cons y ys =>
      cases c with
      | nil => simp [lexLe] at h2
      | cons z zs =>
        simp only [lexLe] at h1 h2 ⊢
        rcases Nat.lt_trichotomy y.toNat z.toNat with hyz | hyz | hyz
        · rcases Nat.lt_trichotomy x.toNat y.toNat with hxy | hxy | hxy
          · simp [Nat.lt_trans hxy hyz]
          · simp [hxy ▸ hyz]
          · rw [if_neg (by omega), if_neg (by omega)] at h1
            exact absurd h1 (by simp)
        · rw [if_neg (by omega), if_pos hyz] at h2
          rcases Nat.lt_trichotomy x.toNat y.toNat with hxy | hxy | hxy
          · simp [hyz ▸ hxy]
          · rw [if_neg (by omega), if_pos hxy] at h1
            rw [if_neg (by omega), if_pos (hxy.trans hyz)]
            exact ih h1 h2
          · rw [if_neg (by omega), if_neg (by omega)] at h1
            exact absurd h1 (by simp)
        · rw [if_neg (by omega), if_neg (by omega)] at h2
          exact absurd h2 (by simp)

theorem lexLt_of_not_lexLe {a b : List Char} (h : lexLe a b = false) :
    lexLt b a = true := by
  induction a generalizing b with
  | nil => simp [lexLe] at h
  | cons x xs ih =>
    cases b with
    | nil => rfl
    | cons y ys =>
      simp only [lexLe] at h
      simp only [lexLt]
      rcases Nat.lt_trichotomy x.toNat y.toNat with hxy | hxy | hxy
      · simp [hxy] at h
      · simp only [if_neg (by omega : ¬ x.toNat < y.toNat), if_pos hxy] at h
        simp [if_neg (by omega : ¬ y.toNat < x.toNat), hxy.symm, ih h]
      · simp [hxy]

theorem lexLe_of_lexLt {a b : List Char} (h : lexLt a b = true) :
    lexLe a b = true := by
  induction a generalizing b with
  | nil => rfl
  | cons x xs ih =>
    cases b with
    | nil => simp [lexLt] at h
    | cons y ys =>
      simp only [lexLt] at h
      simp only [lexLe]
      rcases Nat.lt_trichotomy x.toNat y.toNat with hxy | hxy | hxy
      · simp [hxy]
      · simp only [if_neg (by omega : ¬ x.toNat < y.toNat), if_pos hxy] at h ⊢
        exact ih h
      · simp [if_neg (by omega : ¬ x.toNat < y.toNat),
              if_neg (by omega : ¬ x.toNat = y.toNat)] at h

/-! ### Decimal formatting (JS number-to-string and `padStart`) -/

/-- Fuel-based decimal printer; `natDigitsAux (n+1) n` always has enough fuel. -/
def natDigitsAux : Nat → Nat → List Char
  | 0, _ => []
  | fuel + 1, n => if n < 10 then [dchar n] else natDigitsAux fuel (n / 10) ++ [dchar (n % 10)]

/-- Decimal digits of `n`, most significant first: JS `String(n)`. -/
def natDigits (n : Nat) : List Char := natDigitsAux (n + 1) n

/-- JS `String(z)` for an integer. -/
def intDigits (z : Int) : List Char :=
  if z < 0 then '-' :: natDigits z.natAbs else natDigits z.natAbs

/-- JS `String.prototype.padStart(k, c)`. -/
def padStartL (k : Nat) (c : Char) (l : List Char) : List Char :=
  List.replicate (k - l.length) c ++ l

def pad2 (n : Nat) : List Char := padStartL 2 '0' (natDigits n)

def pad4 (n : Nat) : List Char := padStartL 4 '0' (natDigits n)

/-- JS `String(z).padStart(2, "0")` for an integer (negative inputs keep
their sign, exactly as in JS). -/
def pad2I (z : Int) : List Char := padStartL 2 '0' (intDigits z)

/-- The canonical `YYYY-MM-DD` rendering of a (year, month, day) triple. -/
def mkIsoL (y m d : Nat) : List Char := pad4 y ++ '-' :: (pad2 m ++ '-' :: pad2 d)

def mkIso (y m d : Nat) : String := ⟨mkIsoL y m d⟩

/-! ### Order lemmas for padded decimal components -/

theorem lexLe_append_eqlen {xs ys u v : List Char} (h : xs.length = ys.length) :
    lexLe (xs ++ u) (ys ++ v) = true ↔
      (lexLt xs ys = true ∨ (xs = ys ∧ lexLe u v = true)) := by
  induction xs generalizing ys with
  | nil =>
    cases ys with
    | nil => simp [lexLt]
    | cons b bs => simp at h
  | cons a as ih =>
    cases ys with
    | nil => simp at h
    | cons b bs =>
      simp only [List.length_cons, Nat.add_right_cancel_iff] at h
      simp only [List.cons_append, lexLe, lexLt]
      rcases Nat.lt_trichotomy a.toNat b.toNat with hab | hab | hab
      · simp [hab]
      · have hchar : a = b := Char.eq_of_val_eq (UInt32.toNat.inj hab)
        rw [if_neg (by omega), if_pos hab, if_neg (by omega), if_pos hab]
        rw [show as.append u = as ++ u from rfl, show bs.append v = bs ++ v from rfl, ih h]
        constructor
        · rintro (hlt | ⟨rfl, hle⟩)
          · exact Or.inl hlt
          · exact Or.inr ⟨by rw [hchar], hle⟩
        · rintro (hlt | ⟨heq, hle⟩)
          · exact Or.inl hlt
          · rcases List.cons_eq_cons.mp heq with ⟨-, rfl⟩
            exact Or.inr ⟨rfl, hle⟩
      · rw [if_neg (by omega), if_neg (by omega), if_neg (by omega), if_neg (by omega)]
        constructor
        · intro hh; exact absurd hh (by simp)
        · rintro (hlt | ⟨heq, -⟩)
          · exact absurd hlt (by simp)
          · rcases List.cons_eq_cons.mp heq with ⟨rfl, -⟩; omega

theorem lexLt_append_eqlen {xs ys u v : List Char} (h : xs.length = ys.length) :
    lexLt (xs ++ u) (ys ++ v) = true ↔
      (lexLt xs ys = true ∨ (xs = ys ∧ lexLt u v = true)) := by
  induction xs generalizing ys with
  | nil =>
    cases ys with
    | nil => simp [lexLt]
    | cons b bs => simp at h
  | cons a as ih =>
    cases ys with
    | nil => simp at h
    | cons b bs =>
      simp only [List.length_cons, Nat.add_right_cancel_iff] at h
      simp only [List.cons_append, lexLt]
      rcases Nat.lt_trichotomy a.toNat b.toNat with hab | hab | hab
      · simp [hab]
      · have hchar : a = b := Char.eq_of_val_eq (UInt32.toNat.inj hab)
        rw [if_neg (by omega), if_pos hab, if_neg (by omega), if_pos hab]
        rw [show as.append u = as ++ u from rfl, show bs.append v = bs ++ v from rfl, ih h]
        constructor
        · rintro (hlt | ⟨rfl, hle⟩)
          · exact Or.inl hlt
          · exact Or.inr ⟨by rw [hchar], hle⟩
        · rintro (hlt | ⟨heq, hle⟩)
          · exact Or.inl hlt
          · rcases List.cons_eq_cons.mp heq with ⟨-, rfl⟩
            exact Or.inr ⟨rfl, hle⟩
      · rw [if_neg (by omega), if_neg (by omega), if_neg (by omega), if_neg (by omega)]
        constructor
        · intro hh; exact absurd hh (by simp)
        · rintro (hlt | ⟨heq, -⟩)
          · exact absurd hlt (by simp)
          · rcases List.cons_eq_cons.mp heq with ⟨rfl, -⟩; omega

set_option maxRecDepth 10000
set_option maxHeartbeats 2000000

theorem natDigitsAux_fuel : ∀ {f1 f2 n : Nat}, n < f1 → n < f2 →
    natDigitsAux f1 n = natDigitsAux f2 n := by
  intro f1
  induction f1 with
  | zero => intro f2 n h1; omega
  | succ g ih =>
    intro f2 n h1 h2
    cases f2 with
    | zero => omega
    | succ g2 =>
      show natDigitsAux (g + 1) n = natDigitsAux (g2 + 1) n
      by_cases h : n < 10
      · simp [natDigitsAux, h]
      · have hrec : n / 10 < n := Nat.div_lt_self (by omega) (by omega)
        simp only [natDigitsAux, if_neg h]
        exact congrArg (· ++ [dchar (n % 10)]) (@ih g2 (n / 10) (by omega) (by omega))

theorem natDigits_small {n : Nat} (h : n < 10) : natDigits n = [dchar n] := by
  simp [natDigits, natDigitsAux, h]

theorem natDigits_step {n : Nat} (h : 10 ≤ n) :
    natDigits n = natDigits (n / 10) ++ [dchar (n % 10)] := by
  unfold natDigits
  have h1 : natDigitsAux (n + 1) n
      = natDigitsAux n (n / 10) ++ [dchar (n % 10)] := by
    simp only [natDigitsAux, if_neg (Nat.not_lt.mpr h)]
  rw [h1]
  exact congrArg (· ++ [dchar (n % 10)])
    (@natDigitsAux_fuel n (n / 10 + 1) (n / 10)
      (Nat.lt_of_lt_of_le (Nat.div_lt_self (by omega) (by omega)) (by omega))
      (Nat.lt_succ_self _))

theorem natDigits_two {n : Nat} (h1 : 10 ≤ n) (h2 : n < 100) :
    natDigits n = [dchar (n / 10), dchar (n % 10)] := by
  rw [natDigits_step h1, natDigits_small (by omega)]
  rfl

theorem pad2_eq (n : Nat) (h : n < 100) :
    pad2 n = [dchar (n / 10), dchar (n % 10)] := by
  by_cases h10 : n < 10
  · unfold pad2 padStartL
    rw [natDigits_small h10]
    have e1 : n / 10 = 0 := by omega
    have e2 : n % 10 = n := by omega
    rw [e1, e2]
    rfl
  · unfold pad2 padStartL
    rw [natDigits_two (by omega) h]
    rfl

theorem pad2_len (a : Nat) (h : a < 100) : (pad2 a).length = 2 := by
  rw [pad2_eq a h]
  rfl

theorem dchar_lt_iff : ∀ a < 10, ∀ b < 10,
    ((dchar a).toNat < (dchar b).toNat ↔ a < b) := by decide

theorem dchar_eq_iff : ∀ a < 10, ∀ b < 10, (dchar a = dchar b ↔ a = b) := by decide

theorem dchar_toNat_eq_iff : ∀ a < 10, ∀ b < 10,
    ((dchar a).toNat = (dchar b).toNat ↔ a = b) := by decide

theorem lexLt_pair (c1 c2 e1 e2 : Char) :
    lexLt [c1, c2] [e1, e2] = true ↔
      (c1.toNat < e1.toNat ∨ (c1.toNat = e1.toNat ∧ c2.toNat < e2.toNat)) := by
  simp only [lexLt]
  rcases Nat.lt_trichotomy c1.toNat e1.toNat with h | h | h
  · simp [h]
  · rw [if_neg (by omega), if_pos h]
    rcases Nat.lt_trichotomy c2.toNat e2.toNat with h2 | h2 | h2
    · simp [h, h2]
    · rw [if_neg (by omega), if_pos h2]
      simp [h, h2]
    · rw [if_neg (by omega), if_neg (by omega)]
      simp
      omega
  · rw [if_neg (by omega), if_neg (by omega)]
    simp
    omega

theorem pad2_lt_iff (a : Nat) (ha : a < 100) (b : Nat) (hb : b < 100) :
    (lexLt (pad2 a) (pad2 b) = true ↔ a < b) := by
  rw [pad2_eq a ha, pad2_eq b hb, lexLt_pair]
  rw [dchar_lt_iff (a / 10) (by omega) (b / 10) (by omega)]
  rw [dchar_toNat_eq_iff (a / 10) (by omega) (b / 10) (by omega)]
  rw [dchar_lt_iff (a % 10) (by omega) (b % 10) (by omega)]
  omega

theorem pad2_inj (a : Nat) (ha : a < 100) (b : Nat) (hb : b < 100) :
    (pad2 a = pad2 b ↔ a = b) := by
  rw [pad2_eq a ha, pad2_eq b hb]
  simp only [List.cons_eq_cons, and_true]
  rw [dchar_eq_iff (a / 10) (by omega) (b / 10) (by omega)]
  rw [dchar_eq_iff (a % 10) (by omega) (b % 10) (by omega)]
  omega

theorem natDigits_four {n : Nat} (h1 : 1000 ≤ n) (h2 : n < 10000) :
    natDigits n = [dchar (n / 1000), dchar (n / 100 % 10), dchar (n / 10 % 10),
      dchar (n % 10)] := by
  rw [natDigits_step (by omega), natDigits_step (by omega),
      @natDigits_two (n / 10 / 10) (by omega) (by omega)]
  have e1 : n / 10 / 10 / 10 = n / 1000 := by omega
  have e2 : n / 10 / 10 % 10 = n / 100 % 10 := by omega
  have e3 : n / 10 % 10 = n / 10 % 10 := rfl
  rw [e1, e2]
  rfl

theorem pad4_decomp (y : Nat) (hy : y < 10000) :
    pad4 y = pad2 (y / 100) ++ pad2 (y % 100) := by
  rw [pad2_eq (y / 100) (by omega), pad2_eq (y % 100) (by omega)]
  have e1 : y / 100 / 10 = y / 1000 := by omega
  have e2 : y / 100 % 10 = y / 100 % 10 := rfl
  have e3 : y % 100 / 10 = y / 10 % 10 := by omega
  have e4 : y % 100 % 10 = y % 10 := by omega
  rw [e1, e3, e4]
  by_cases h3 : y < 10
  · unfold pad4 padStartL
    rw [natDigits_small h3]
    have e5 : y / 1000 = 0 := by omega
    have e6 : y / 100 % 10 = 0 := by omega
    have e7 : y / 10 % 10 = 0 := by omega
    have e8 : y % 10 = y := by omega
    rw [e5, e6, e7, e8]
    rfl
  · by_cases h2c : y < 100
    · unfold pad4 padStartL
      rw [natDigits_two (by omega) h2c]
      have ha : y / 1000 = 0 := by omega
      have hb : y / 100 % 10 = 0 := by omega
      have hc : y / 10 % 10 = y / 10 := by omega
      rw [ha, hb, hc]
      rfl
    · by_cases h1c : y < 1000
      · unfold pad4 padStartL
        rw [natDigits_step (by omega), @natDigits_two (y / 10) (by omega) (by omega)]
        have ha : y / 1000 = 0 := by omega
        have hb : y / 10 / 10 = y / 100 % 10 := by omega
        have hc : y / 10 % 10 = y / 10 % 10 := rfl
        rw [ha, hb]
        rfl
      · unfold pad4 padStartL
        rw [natDigits_four (by omega) hy]
        rfl

theorem pad4_len (y : Nat) (hy : y < 10000) : (pad4 y).length = 4 := by
  rw [pad4_decomp y hy, List.length_append,
      pad2_len (y / 100) (by omega), pad2_len (y % 100) (by omega)]

theorem pad4_lt_iff (a b : Nat) (ha : a < 10000) (hb : b < 10000) :
    (lexLt (pad4 a) (pad4 b) = true ↔ a < b) := by
  rw [pad4_decomp a ha, pad4_decomp b hb]
  have hlen : (pad2 (a / 100)).length = (pad2 (b / 100)).length := by
    rw [pad2_len _ (by omega), pad2_len _ (by omega)]
  rw [lexLt_append_eqlen hlen]
  rw [pad2_lt_iff (a / 100) (by omega) (b / 100) (by omega)]
  rw [pad2_inj (a / 100) (by omega) (b / 100) (by omega)]
  rw [pad2_lt_iff (a % 100) (by omega) (b % 100) (by omega)]
  omega

theorem pad4_inj (a b : Nat) (ha : a < 10000) (hb : b < 10000) :
    pad4 a = pad4 b ↔ a = b := by
  rw [pad4_decomp a ha, pad4_decomp b hb]
  constructor
  · intro h
    have hlen : (pad2 (a / 100)).length = (pad2 (b / 100)).length := by
      rw [pad2_len _ (by omega), pad2_len _ (by omega)]
    have h1 := List.append_inj h (by rw [pad2_len _ (by omega), pad2_len _ (by omega)])
    rcases h1 with ⟨hx, hy2⟩
    rw [pad2_inj (a / 100) (by omega) (b / 100) (by omega)] at hx
    rw [pad2_inj (a % 100) (by omega) (b % 100) (by omega)] at hy2
    omega
  · intro h
    rw [h]

theorem natDigits_eq_pad4 {y : Nat} (h1 : 1000 ≤ y) (h2 : y < 10000) :
    natDigits y = pad4 y := by
  unfold pad4 padStartL
  rw [natDigits_four h1 h2]
  rfl

/-! ### Proleptic-Gregorian calendar arithmetic

`toRD y m d` counts days from `0000-01-01` (day 0) to `y-m-d`;
`fromRD` is its inverse on valid dates.  This is the calendar-date
arithmetic that the JS `Date` round trip in `dateAddDays` performs. -/

def isLeap (y : Nat) : Bool := decide ((y % 4 = 0 ∧ ¬ y % 100 = 0) ∨ y % 400 = 0)

/-- Days in a month. -/
def dimM (leap : Bool) (m : Nat) : Nat :=
  match m with
  | 1 => 31 | 2 => if leap then 29 else 28 | 3 => 31 | 4 => 30
  | 5 => 31 | 6 => 30 | 7 => 31 | 8 => 31
  | 9 => 30 | 10 => 31 | 11 => 30 | 12 => 31
  | _ => 0

/-- Days in the year before month `m` starts. -/
def cumM (leap : Bool) (m : Nat) : Nat :=
  let base : Nat :=
    match m with
    | 1 => 0 | 2 => 31 | 3 => 59 | 4 => 90 | 5 => 120 | 6 => 151
    | 7 => 181 | 8 => 212 | 9 => 243 | 10 => 273 | 11 => 304 | 12 => 334
    | _ => 0
  if 3 ≤ m ∧ m ≤ 12 ∧ leap = true then base + 1 else base

/-- Days before January 1 of year `y`, counting from `0000-01-01`. -/
def dby (y : Nat) : Nat := 365 * y + (y + 3) / 4 + (y + 399) / 400 - (y + 99) / 100

def yearLen (y : Nat) : Nat := if isLeap y then 366 else 365

/-- Rata-die day number of `y-m-d` (valid dates only give meaningful values). -/
def toRD (y m d : Nat) : Nat := dby y + cumM (isLeap y) m + (d - 1)

def validYMD (y m d : Nat) : Prop :=
  y ≤ 9999 ∧ 1 ≤ m ∧ m ≤ 12 ∧ 1 ≤ d ∧ d ≤ dimM (isLeap y) m

instance (y m d : Nat) : Decidable (validYMD y m d) := by
  unfold validYMD; infer_instance

/-- Greatest `k ≤ b` with `P k = true` (0 if none): bounded search. -/
def findG (P : Nat → Bool) : Nat → Nat
  | 0 => 0
  | b + 1 => if P (b + 1) then b + 1 else findG P b

theorem findG_le (P : Nat → Bool) (b : Nat) : findG P b ≤ b := by
  induction b with
  | zero => exact Nat.le_refl 0
  | succ n ih =>
    unfold findG
    by_cases h : P (n + 1) = true
    · simp [h]
    · simp only [h]
      rw [if_neg (by simp [h])]
      omega

theorem findG_spec (P : Nat → Bool) (b : Nat) (h0 : P 0 = true) :
    P (findG P b) = true := by
  induction b with
  | zero => exact h0
  | succ n ih =>
    unfold findG
    by_cases h : P (n + 1) = true
    · simp [h]
    · rw [if_neg (by simp [h])]
      exact ih

theorem findG_gt (P : Nat → Bool) (b k : Nat) (h1 : findG P b < k) (h2 : k ≤ b) :
    P k = false := by
  induction b with
  | zero => omega
  | succ n ih =>
    unfold findG at h1
    by_cases h : P (n + 1) = true
    · rw [if_pos h] at h1
      omega
    · rw [if_neg h] at h1
      rcases Nat.lt_or_ge k (n + 1) with hk | hk
      · exact ih h1 (by omega)
      · have : k = n + 1 := by omega
        rw [this]
        exact Bool.eq_false_iff.mpr h

theorem le_findG (P : Nat → Bool) (b m : Nat) (h1 : m ≤ b) (h2 : P m = true) :
    m ≤ findG P b := by
  induction b with
  | zero => omega
  | succ n ih =>
    unfold findG
    by_cases h : P (n + 1) = true
    · rw [if_pos h]
      omega
    · rw [if_neg h]
      rcases Nat.lt_or_ge m (n + 1) with hk | hk
      · exact ih (by omega)
      · have : m = n + 1 := by omega
        rw [this] at h2
        exact absurd h2 h

/-- Year of the 400-year era, by bounded search. -/
def rdYoe (n : Nat) : Nat := findG (fun k => decide (dby k ≤ n % 146097)) 399

def rdRest (n : Nat) : Nat := n % 146097 - dby (rdYoe n)

def rdM (n : Nat) : Nat :=
  findG (fun mm => decide (cumM (isLeap (rdYoe n)) mm ≤ rdRest n)) 12

def rdD (n : Nat) : Nat := rdRest n - cumM (isLeap (rdYoe n)) (rdM n) + 1

/-- Inverse of `toRD`: day number to `(y, m, d)`. -/
def fromRD (n : Nat) : Nat × Nat × Nat :=
  (400 * (n / 146097) + rdYoe n, rdM n, rdD n)

theorem dby_succ (y : Nat) : dby (y + 1) = dby y + yearLen y := by
  unfold dby yearLen isLeap
  rw [show (if decide ((y % 4 = 0 ∧ ¬ y % 100 = 0) ∨ y % 400 = 0) = true then 366 else 365)
        = (if (y % 4 = 0 ∧ ¬ y % 100 = 0) ∨ y % 400 = 0 then 366 else 365) by
      by_cases h : (y % 4 = 0 ∧ ¬ y % 100 = 0) ∨ y % 400 = 0 <;> simp [h]]
  split <;> omega

theorem dby_mono {a b : Nat} (h : a ≤ b) : dby a ≤ dby b := by
  induction b with
  | zero =>
    have ha : a = 0 := by omega
    rw [ha]
  | succ n ih =>
    rcases Nat.lt_or_ge a (n + 1) with hlt | hge
    · have hle := ih (by omega)
      rw [dby_succ]
      omega
    · have ha : a = n + 1 := by omega
      rw [ha]

theorem dby_era (e k : Nat) (hk : k < 400) : dby (400 * e + k) = 146097 * e + dby k := by
  unfold dby
  omega

theorem isLeap_era (e k : Nat) : isLeap (400 * e + k) = isLeap k := by
  unfold isLeap
  by_cases h : (k % 4 = 0 ∧ ¬ k % 100 = 0) ∨ k % 400 = 0
  · rw [decide_eq_true_eq.mpr (by omega), decide_eq_true_eq.mpr h]
  · rw [decide_eq_false (by omega), decide_eq_false h]

theorem dby_400 : dby 400 = 146097 := by decide

theorem cumM_succ (lp : Bool) : ∀ m < 12, 1 ≤ m →
    cumM lp (m + 1) = cumM lp m + dimM lp m := by
  cases lp <;> decide

theorem cumM_last (lp : Bool) :
    cumM lp 12 + dimM lp 12 = if lp then 366 else 365 := by
  cases lp <;> decide

theorem yearLen_cum (y : Nat) :
    cumM (isLeap y) 12 + dimM (isLeap y) 12 = yearLen y := by
  rw [cumM_last]
  unfold yearLen
  cases h : isLeap y <;> simp

theorem cumM_mono (lp : Bool) : ∀ a < 13, ∀ b < 13, a ≤ b → cumM lp a ≤ cumM lp b := by
  cases lp <;> decide

theorem cumM_dim_le (lp : Bool) : ∀ a < 12, ∀ b < 13, 1 ≤ a → a < b →
    cumM lp a + dimM lp a ≤ cumM lp b := by
  cases lp <;> decide

/-- Within a valid year, the day offset determines the month and day. -/
theorem toRD_lt_next_year (y m d : Nat) (h : validYMD y m d) :
    toRD y m d < dby (y + 1) := by
  obtain ⟨h2, h3, h4, h5, h6⟩ := h
  have hc : cumM (isLeap y) m + dimM (isLeap y) m ≤ yearLen y := by
    rcases Nat.lt_or_ge m 12 with hm | hm
    · calc cumM (isLeap y) m + dimM (isLeap y) m ≤ cumM (isLeap y) 12 :=
            cumM_dim_le (isLeap y) m (by omega) 12 (by omega) h3 hm
        _ ≤ yearLen y := by rw [← yearLen_cum y]; omega
    · have : m = 12 := by omega
      subst this
      rw [yearLen_cum y]
  rw [dby_succ]
  unfold toRD
  omega

theorem toRD_strict_year {y1 m1 d1 y2 m2 d2 : Nat} (h1 : validYMD y1 m1 d1)
    (h2 : validYMD y2 m2 d2) (hy : y1 < y2) : toRD y1 m1 d1 < toRD y2 m2 d2 := by
  have ha := toRD_lt_next_year y1 m1 d1 h1
  have hb : dby (y1 + 1) ≤ dby y2 := dby_mono (by omega)
  unfold toRD
  unfold toRD at ha
  omega

theorem toRD_strict_month {y m1 d1 m2 d2 : Nat} (h1 : validYMD y m1 d1)
    (h2 : validYMD y m2 d2) (hm : m1 < m2) : toRD y m1 d1 < toRD y m2 d2 := by
  obtain ⟨-, ha3, ha4, ha5, ha6⟩ := h1
  obtain ⟨-, hb3, hb4, hb5, hb6⟩ := h2
  have hc := cumM_dim_le (isLeap y) m1 (by omega) m2 (by omega) ha3 hm
  unfold toRD
  omega

theorem toRD_strict {y1 m1 d1 y2 m2 d2 : Nat} (h1 : validYMD y1 m1 d1)
    (h2 : validYMD y2 m2 d2)
    (hlt : y1 < y2 ∨ (y1 = y2 ∧ (m1 < m2 ∨ (m1 = m2 ∧ d1 < d2)))) :
    toRD y1 m1 d1 < toRD y2 m2 d2 := by
  rcases hlt with hy | ⟨rfl, hm | ⟨rfl, hd⟩⟩
  · exact toRD_strict_year h1 h2 hy
  · exact toRD_strict_month h1 h2 hm
  · obtain ⟨-, -, -, ha5, -⟩ := h1
    unfold toRD
    omega

/-- Chronological (lexicographic on the triple) order. -/
def tripleLe : Nat × Nat × Nat → Nat × Nat × Nat → Prop
  | (y1, m1, d1), (y2, m2, d2) =>
    y1 < y2 ∨ (y1 = y2 ∧ (m1 < m2 ∨ (m1 = m2 ∧ d1 ≤ d2)))

instance (t1 t2 : Nat × Nat × Nat) : Decidable (tripleLe t1 t2) := by
  unfold tripleLe; infer_instance

theorem toRD_le_iff {y1 m1 d1 y2 m2 d2 : Nat} (h1 : validYMD y1 m1 d1)
    (h2 : validYMD y2 m2 d2) :
    toRD y1 m1 d1 ≤ toRD y2 m2 d2 ↔ tripleLe (y1, m1, d1) (y2, m2, d2) := by
  constructor
  · intro hle
    by_contra hn
    unfold tripleLe at hn
    simp only [not_or, not_and, not_lt, not_le] at hn
    have : y2 < y1 ∨ (y2 = y1 ∧ (m2 < m1 ∨ (m2 = m1 ∧ d2 < d1))) := by omega
    have := toRD_strict h2 h1 this
    omega
  · intro hle
    unfold tripleLe at hle
    rcases hle with hy | ⟨heq, hm | ⟨hmeq, hd⟩⟩
    · exact Nat.le_of_lt (toRD_strict_year h1 h2 hy)
    · subst heq
      exact Nat.le_of_lt (toRD_strict_month h1 h2 hm)
    · subst heq
      subst hmeq
      unfold toRD
      omega

theorem dby_zero : dby 0 = 0 := by decide

theorem cumM_one (lp : Bool) : cumM lp 1 = 0 := by cases lp <;> decide

theorem rdYoe_le (n : Nat) : rdYoe n ≤ 399 := findG_le _ 399

theorem rdYoe_spec (n : Nat) : dby (rdYoe n) ≤ n % 146097 := by
  have h := findG_spec (fun k => decide (dby k ≤ n % 146097)) 399
    (by rw [decide_eq_true_eq, dby_zero]; omega)
  rw [decide_eq_true_eq] at h
  exact h

theorem rdYoe_upper (n : Nat) : n % 146097 < dby (rdYoe n + 1) := by
  by_cases h : rdYoe n = 399
  · have hlt : n % 146097 < 146097 := Nat.mod_lt _ (by omega)
    rw [h]
    rw [show (399 + 1 : Nat) = 400 from rfl, dby_400]
    exact hlt
  · have hle := rdYoe_le n
    have hf := findG_gt (fun k => decide (dby k ≤ n % 146097)) 399 (rdYoe n + 1)
      (Nat.lt_succ_self _) (by omega)
    rw [decide_eq_false_iff_not] at hf
    omega

theorem rdRest_lt (n : Nat) : rdRest n < yearLen (rdYoe n) := by
  have h1 := rdYoe_spec n
  have h2 := rdYoe_upper n
  have h3 := dby_succ (rdYoe n)
  unfold rdRest
  omega

theorem rdM_ge (n : Nat) : 1 ≤ rdM n := by
  apply le_findG _ _ _ (by omega)
  rw [decide_eq_true_eq, cumM_one]
  omega

theorem rdM_le (n : Nat) : rdM n ≤ 12 := findG_le _ 12

theorem rdM_spec (n : Nat) : cumM (isLeap (rdYoe n)) (rdM n) ≤ rdRest n := by
  have h := findG_spec (fun mm => decide (cumM (isLeap (rdYoe n)) mm ≤ rdRest n)) 12
    (by rw [decide_eq_true_eq]; cases hc : isLeap (rdYoe n) <;> simp [cumM])
  rw [decide_eq_true_eq] at h
  exact h

theorem rdM_upper (n : Nat) :
    rdRest n < cumM (isLeap (rdYoe n)) (rdM n) + dimM (isLeap (rdYoe n)) (rdM n) := by
  by_cases h : rdM n = 12
  · have hr := rdRest_lt n
    rw [← yearLen_cum (rdYoe n)] at hr
    rw [h]
    exact hr
  · have hle := rdM_le n
    have hge := rdM_ge n
    have hf := findG_gt (fun mm => decide (cumM (isLeap (rdYoe n)) mm ≤ rdRest n)) 12
      (rdM n + 1) (Nat.lt_succ_self _) (by omega)
    rw [decide_eq_false_iff_not] at hf
    have hstep := cumM_succ (isLeap (rdYoe n)) (rdM n) (by omega) hge
    omega

theorem dby_10000 : dby 10000 = 3652425 := by decide

theorem fromRD_correct (n : Nat) (hn : n < 3652425) :
    validYMD (fromRD n).1 (fromRD n).2.1 (fromRD n).2.2 ∧
      toRD (fromRD n).1 (fromRD n).2.1 (fromRD n).2.2 = n := by
  have hera : n / 146097 ≤ 24 := by omega
  have hyoe := rdYoe_le n
  have hy9999 : 400 * (n / 146097) + rdYoe n ≤ 9999 := by omega
  have hlp : isLeap (400 * (n / 146097) + rdYoe n) = isLeap (rdYoe n) :=
    isLeap_era (n / 146097) (rdYoe n)
  have hm1 := rdM_ge n
  have hm12 := rdM_le n
  have hcm := rdM_spec n
  have hcu := rdM_upper n
  have hd1 : 1 ≤ rdD n := by
    unfold rdD
    omega
  have hd2 : rdD n ≤ dimM (isLeap (rdYoe n)) (rdM n) := by
    unfold rdD
    omega
  constructor
  · refine ⟨hy9999, hm1, hm12, hd1, ?_⟩
    show rdD n ≤ dimM (isLeap (400 * (n / 146097) + rdYoe n)) (rdM n)
    rw [hlp]
    exact hd2
  · show toRD (400 * (n / 146097) + rdYoe n) (rdM n) (rdD n) = n
    unfold toRD
    rw [hlp]
    rw [dby_era (n / 146097) (rdYoe n) (by omega)]
    have hspec := rdYoe_spec n
    have hrest : rdRest n = n % 146097 - dby (rdYoe n) := rfl
    have hmod := Nat.div_add_mod n 146097
    unfold rdD
    omega

theorem lexLe_eqlen_iff {xs ys : List Char} (h : xs.length = ys.length) :
    lexLe xs ys = true ↔ (lexLt xs ys = true ∨ xs = ys) := by
  have happ := lexLe_append_eqlen (u := []) (v := []) h
  rw [List.append_nil, List.append_nil] at happ
  rw [happ]
  simp [lexLe]

theorem pad2_le_iff (a : Nat) (ha : a < 100) (b : Nat) (hb : b < 100) :
    (lexLe (pad2 a) (pad2 b) = true ↔ a ≤ b) := by
  rw [lexLe_eqlen_iff (by rw [pad2_len a ha, pad2_len b hb])]
  rw [pad2_lt_iff a ha b hb, pad2_inj a ha b hb]
  omega

theorem lexLe_cons_same (c : Char) (u v : List Char) :
    lexLe (c :: u) (c :: v) = lexLe u v := by
  simp [lexLe]

theorem lexLt_cons_same (c : Char) (u v : List Char) :
    lexLt (c :: u) (c :: v) = lexLt u v := by
  simp [lexLt]

theorem mkIsoL_le_iff {y1 m1 d1 y2 m2 d2 : Nat}
    (hy1 : y1 < 10000) (hm1 : m1 < 100) (hd1 : d1 < 100)
    (hy2 : y2 < 10000) (hm2 : m2 < 100) (hd2 : d2 < 100) :
    lexLe (mkIsoL y1 m1 d1) (mkIsoL y2 m2 d2) = true ↔
      tripleLe (y1, m1, d1) (y2, m2, d2) := by
  unfold mkIsoL
  rw [lexLe_append_eqlen (by rw [pad4_len y1 hy1, pad4_len y2 hy2])]
  rw [pad4_lt_iff y1 y2 hy1 hy2, pad4_inj y1 y2 hy1 hy2]
  rw [lexLe_cons_same]
  rw [lexLe_append_eqlen (by rw [pad2_len m1 hm1, pad2_len m2 hm2])]
  rw [pad2_lt_iff m1 hm1 m2 hm2, pad2_inj m1 hm1 m2 hm2]
  rw [lexLe_cons_same]
  rw [pad2_le_iff d1 hd1 d2 hd2]
  unfold tripleLe
  constructor
  · rintro (h | ⟨rfl, h | ⟨rfl, h⟩⟩)
    · exact Or.inl h
    · exact Or.inr ⟨rfl, Or.inl h⟩
    · exact Or.inr ⟨rfl, Or.inr ⟨rfl, h⟩⟩
  · rintro (h | ⟨rfl, h | ⟨rfl, h⟩⟩)
    · exact Or.inl h
    · exact Or.inr ⟨rfl, Or.inl h⟩
    · exact Or.inr ⟨rfl, Or.inr ⟨rfl, h⟩⟩

theorem dimM_le (lp : Bool) (m : Nat) : dimM lp m ≤ 31 := by
  unfold dimM
  split <;> first
    | omega
    | (cases lp <;> simp)

/-- String comparison of rendered valid dates is day-number comparison. -/
theorem mkIso_le_iff_toRD {y1 m1 d1 y2 m2 d2 : Nat}
    (h1 : validYMD y1 m1 d1) (h2 : validYMD y2 m2 d2) :
    strLe (mkIso y1 m1 d1) (mkIso y2 m2 d2) = true ↔
      toRD y1 m1 d1 ≤ toRD y2 m2 d2 := by
  obtain ⟨ha1, ha2, ha3, ha4, ha5⟩ := h1
  obtain ⟨hb1, hb2, hb3, hb4, hb5⟩ := h2
  have hda := dimM_le (isLeap y1) m1
  have hdb := dimM_le (isLeap y2) m2
  unfold strLe mkIso
  rw [show (String.mk (mkIsoL y1 m1 d1)).data = mkIsoL y1 m1 d1 from rfl,
      show (String.mk (mkIsoL y2 m2 d2)).data = mkIsoL y2 m2 d2 from rfl]
  rw [mkIsoL_le_iff (by omega) (by omega) (by omega) (by omega) (by omega) (by omega)]
  rw [toRD_le_iff ⟨ha1, ha2, ha3, ha4, ha5⟩ ⟨hb1, hb2, hb3, hb4, hb5⟩]

theorem lexLe_antisymm {a b : List Char} (h1 : lexLe a b = true)
    (h2 : lexLe b a = true) : a = b := by
  induction a generalizing b with
  | nil =>
    cases b with
    | nil => rfl
    | cons c cs => simp [lexLe] at h2
  | cons x xs ih =>
    cases b with
    | nil => simp [lexLe] at h1
    | cons y ys =>
      simp only [lexLe] at h1 h2
      rcases Nat.lt_trichotomy x.toNat y.toNat with hxy | hxy | hxy
      · rw [if_neg (by omega), if_neg (by omega)] at h2
        exact absurd h2 (by simp)
      · rw [if_neg (by omega), if_pos hxy] at h1
        rw [if_neg (by omega), if_pos hxy.symm] at h2
        have hc : x = y := Char.eq_of_val_eq (UInt32.toNat.inj hxy)
        rw [hc, ih h1 h2]
      · rw [if_neg (by omega), if_neg (by omega)] at h1
        exact absurd h1 (by simp)

/-! ### Parsing a strict `YYYY-MM-DD` shape -/

/-- Parse a strict ISO date string into its numeric components
(the shape tested by the normaliser's `/^\d{4}-\d{2}-\d{2}$/` branch). -/
def isoTripleOfL (l : List Char) : Option (Nat × Nat × Nat) :=
  match l with
  | [a, b, c, d, s1, e, f, s2, g, i] =>
    if isDig a && isDig b && isDig c && isDig d && (s1 = '-' : Bool) &&
        isDig e && isDig f && (s2 = '-' : Bool) && isDig g && isDig i then
      some (1000 * digitVal a + 100 * digitVal b + 10 * digitVal c + digitVal d,
            10 * digitVal e + digitVal f,
            10 * digitVal g + digitVal i)
    else none
  | _ => none

def isoTripleOf (s : String) : Option (Nat × Nat × Nat) := isoTripleOfL s.data

theorem isDig_dchar : ∀ k < 10, isDig (dchar k) = true := by decide

theorem digitVal_dchar : ∀ k < 10, digitVal (dchar k) = k := by decide

theorem dchar_digitVal {c : Char} (h : isDig c = true) : dchar (digitVal c) = c := by
  unfold isDig at h
  simp only [Bool.or_eq_true, decide_eq_true_eq] at h
  rcases h with ((((((((h | h) | h) | h) | h) | h) | h) | h) | h) | h <;> subst h <;> rfl

theorem digitVal_lt {c : Char} (h : isDig c = true) : digitVal c < 10 := by
  unfold isDig at h
  simp only [Bool.or_eq_true, decide_eq_true_eq] at h
  rcases h with ((((((((h | h) | h) | h) | h) | h) | h) | h) | h) | h <;> subst h <;> decide

theorem mkIsoL_chars (y m d : Nat) (hy : y < 10000) (hm : m < 100) (hd : d < 100) :
    mkIsoL y m d = [dchar (y / 1000), dchar (y / 100 % 10), dchar (y / 10 % 10),
      dchar (y % 10), '-', dchar (m / 10), dchar (m % 10), '-',
      dchar (d / 10), dchar (d % 10)] := by
  unfold mkIsoL
  rw [pad4_decomp y hy, pad2_eq (y / 100) (by omega), pad2_eq (y % 100) (by omega),
      pad2_eq m hm, pad2_eq d hd]
  have e1 : y / 100 / 10 = y / 1000 := by omega
  have e2 : y % 100 / 10 = y / 10 % 10 := by omega
  have e3 : y % 100 % 10 = y % 10 := by omega
  rw [e1, e2, e3]
  rfl

theorem isoTripleOf_mkIso (y m d : Nat) (hy : y < 10000) (hm : m < 100) (hd : d < 100) :
    isoTripleOf (mkIso y m d) = some (y, m, d) := by
  unfold isoTripleOf mkIso
  rw [show (String.mk (mkIsoL y m d)).data = mkIsoL y m d from rfl]
  rw [mkIsoL_chars y m d hy hm hd]
  simp only [isoTripleOfL]
  rw [if_pos (by
    rw [isDig_dchar (y / 1000) (by omega), isDig_dchar (y / 100 % 10) (by omega),
        isDig_dchar (y / 10 % 10) (by omega), isDig_dchar (y % 10) (by omega),
        isDig_dchar (m / 10) (by omega), isDig_dchar (m % 10) (by omega),
        isDig_dchar (d / 10) (by omega), isDig_dchar (d % 10) (by omega)]
    simp)]
  rw [digitVal_dchar (y / 1000) (by omega), digitVal_dchar (y / 100 % 10) (by omega),
      digitVal_dchar (y / 10 % 10) (by omega), digitVal_dchar (y % 10) (by omega),
      digitVal_dchar (m / 10) (by omega), digitVal_dchar (m % 10) (by omega),
      digitVal_dchar (d / 10) (by omega), digitVal_dchar (d % 10) (by omega)]
  simp only [Option.some.injEq, Prod.mk.injEq]
  refine ⟨by omega, by omega, by omega⟩

theorem mkIso_isoTripleOf {s : String} {y m d : Nat}
    (h : isoTripleOf s = some (y, m, d)) :
    s = mkIso y m d ∧ y < 10000 ∧ m < 100 ∧ d < 100 := by
  obtain ⟨l⟩ := s
  unfold isoTripleOf at h
  rw [show (String.mk l).data = l from rfl] at h
  rcases l with - | ⟨a, - | ⟨b, - | ⟨c, - | ⟨dd, - | ⟨s1, - | ⟨e, - | ⟨f,
    - | ⟨s2, - | ⟨g, - | ⟨i, - | ⟨x, rest⟩⟩⟩⟩⟩⟩⟩⟩⟩⟩⟩ <;>
    simp only [isoTripleOfL] at h <;>
    try exact Option.noConfusion h
  by_cases hc : (isDig a && isDig b && isDig c && isDig dd && (s1 = '-' : Bool) &&
      isDig e && isDig f && (s2 = '-' : Bool) && isDig g && isDig i) = true
  swap
  · rw [if_neg hc] at h
    exact Option.noConfusion h
  rw [if_pos hc] at h
  simp only [Option.some.injEq, Prod.mk.injEq] at h
  obtain ⟨hyv, hmv, hdv⟩ := h
  simp only [Bool.and_eq_true, decide_eq_true_eq] at hc
  obtain ⟨⟨⟨⟨⟨⟨⟨⟨⟨ha, hb⟩, hcc⟩, hdd⟩, hs1⟩, he⟩, hf⟩, hs2⟩, hg⟩, hi⟩ := hc
  have la := digitVal_lt ha
  have lb := digitVal_lt hb
  have lc := digitVal_lt hcc
  have ld := digitVal_lt hdd
  have le' := digitVal_lt he
  have lf := digitVal_lt hf
  have lg := digitVal_lt hg
  have li := digitVal_lt hi
  have hy : y < 10000 := by omega
  have hm : m < 100 := by omega
  have hd : d < 100 := by omega
  refine ⟨?_, hy, hm, hd⟩
  show String.mk _ = mkIso y m d
  unfold mkIso
  rw [mkIsoL_chars y m d hy hm hd]
  have ea : y / 1000 = digitVal a := by omega
  have eb : y / 100 % 10 = digitVal b := by omega
  have ec : y / 10 % 10 = digitVal c := by omega
  have ed : y % 10 = digitVal dd := by omega
  have ee : m / 10 = digitVal e := by omega
  have ef : m % 10 = digitVal f := by omega
  have eg : d / 10 = digitVal g := by omega
  have ei : d % 10 = digitVal i := by omega
  rw [ea, eb, ec, ed, ee, ef, eg, ei]
  rw [dchar_digitVal ha, dchar_digitVal hb, dchar_digitVal hcc, dchar_digitVal hdd,
      dchar_digitVal he, dchar_digitVal hf, dchar_digitVal hg, dchar_digitVal hi]
  rw [hs1, hs2]

/-! ### JS string helpers: split, trim, substring search -/

/-- Does `n` occur as a prefix of `h`? (JS `startsWith`.) -/
def startsSeq (n h : List Char) : Bool :=
  match n, h with
  | [], _ => true
  | _ :: _, [] => false
  | a :: n', b :: h' => a = b && startsSeq n' h'

/-- Does `n` occur as a contiguous subsequence of `h`? (JS `includes`.) -/
def seqContains (h n : List Char) : Bool :=
  startsSeq n h ||
    match h with
    | [] => false
    | _ :: h' => seqContains h' n

/-- Split on whitespace runs, dropping empty pieces: the net effect of JS
`split(/\s+/)` followed by `.filter(Boolean)`. -/
def wsSplitAux : List Char → List Char → List (List Char)
  | [], cur => if cur = [] then [] else [cur.reverse]
  | c :: t, cur =>
    if isWs c then
      if cur = [] then wsSplitAux t [] else cur.reverse :: wsSplitAux t []
    else wsSplitAux t (c :: cur)

def wsSplit (l : List Char) : List (List Char) := wsSplitAux l []

/-- JS `String.prototype.trim` (ASCII whitespace). -/
def trimL (l : List Char) : List Char :=
  ((l.dropWhile isWs).reverse.dropWhile isWs).reverse

/-- Split on a separator character, keeping empty pieces (JS `split("-")`). -/
def sepSplitAux (sep : Char) : List Char → List Char → List (List Char)
  | [], cur => [cur.reverse]
  | c :: t, cur =>
    if c = sep then cur.reverse :: sepSplitAux sep t []
    else sepSplitAux sep t (c :: cur)

def sepSplit (sep : Char) (l : List Char) : List (List Char) := sepSplitAux sep l []

/-! ### JS `Number(string)` conversion and the money parser -/

def digitsVal (l : List Char) : Nat := l.foldl (fun a c => 10 * a + digitVal c) 0

def hexVal (c : Char) : Option Nat :=
  if isDig c then some (digitVal c)
  else if c = 'a' ∨ c = 'A' then some 10
  else if c = 'b' ∨ c = 'B' then some 11
  else if c = 'c' ∨ c = 'C' then some 12
  else if c = 'd' ∨ c = 'D' then some 13
  else if c = 'e' ∨ c = 'E' then some 14
  else if c = 'f' ∨ c = 'F' then some 15
  else none

/-- Digits of a radix literal (hex/octal/binary); `none` on a bad digit. -/
def radixVal (base : Nat) (l : List Char) : Option Nat :=
  l.foldl
    (fun acc c =>
      match acc, hexVal c with
      | some a, some v => if v < base then some (base * a + v) else none
      | _, _ => none)
    (some 0)

/-- Value of `ip . fp × 10^ex` as an exact fraction. -/
def decValue (neg : Bool) (ip fp : List Char) (ex : Int) : Frac :=
  let m : Int := digitsVal (ip ++ fp)
  let m := if neg then -m else m
  let net : Int := ex - fp.length
  if 0 ≤ net then ⟨m * (10 : Int) ^ net.toNat, 1⟩
  else ⟨m, (10 : Int) ^ (-net).toNat⟩

/-- Exponent part after `e`/`E`. -/
def parseExpPart (neg : Bool) (ip fp : List Char) (l : List Char) : JSNum :=
  let core : Bool → List Char → JSNum := fun eneg ds =>
    if ds = [] ∨ ¬ ds.all isDig then .nan
    else .fin (decValue neg ip fp
      (if eneg then -(digitsVal ds : Int) else (digitsVal ds : Int)))
  match l with
  | '+' :: r => core false r
  | '-' :: r => core true r
  | r => core false r

/-- Decimal literal (JS `StrDecimalLiteral` without `Infinity`). -/
def parseDec (neg : Bool) (l : List Char) : JSNum :=
  let ip := l.takeWhile isDig
  let rest := l.dropWhile isDig
  match rest with
  | [] => if ip = [] then .nan else .fin (decValue neg ip [] 0)
  | '.' :: r2 =>
    let fp := r2.takeWhile isDig
    let r3 := r2.dropWhile isDig
    if ip = [] ∧ fp = [] then .nan
    else
      match r3 with
      | [] => .fin (decValue neg ip fp 0)
      | 'e' :: r4 => parseExpPart neg ip fp r4
      | 'E' :: r4 => parseExpPart neg ip fp r4
      | _ => .nan
  | 'e' :: r2 => if ip = [] then .nan else parseExpPart neg ip [] r2
  | 'E' :: r2 => if ip = [] then .nan else parseExpPart neg ip [] r2
  | _ => .nan

/-- JS `Number(s)` for an already-whitespace-free string.  Exact values are
used where JS would round to the nearest double, and a finite value is
produced where a huge exponent would overflow to `Infinity`; neither
difference is observable in the verified claims. -/
def jsNumber (l : List Char) : JSNum :=
  match l with
  | [] => .fin ⟨0, 1⟩
  | '0' :: 'x' :: r => match radixVal 16 r with
    | some v => if r = [] then .nan else .fin ⟨v, 1⟩
    | none => .nan
  | '0' :: 'X' :: r => match radixVal 16 r with
    | some v => if r = [] then .nan else .fin ⟨v, 1⟩
    | none => .nan
  | '0' :: 'o' :: r => match radixVal 8 r with
    | some v => if r = [] then .nan else .fin ⟨v, 1⟩
    | none => .nan
  | '0' :: 'O' :: r => match radixVal 8 r with
    | some v => if r = [] then .nan else .fin ⟨v, 1⟩
    | none => .nan
  | '0' :: 'b' :: r => match radixVal 2 r with
    | some v => if r = [] then .nan else .fin ⟨v, 1⟩
    | none => .nan
  | '0' :: 'B' :: r => match radixVal 2 r with
    | some v => if r = [] then .nan else .fin ⟨v, 1⟩
    | none => .nan
  | _ =>
    if l = "Infinity".data ∨ l = "+Infinity".data then .inf false
    else if l = "-Infinity".data then .inf true
    else
      match l with
      | '+' :: r => parseDec false r
      | '-' :: r => parseDec true r
      | r => parseDec false r

/-- The argument type of `parseMoney`: `string | number | null | undefined`. -/
inductive MoneyInput where
  | str (s : String)
  | num (n : JSNum)
  | nullV
  | undef
  deriving DecidableEq

/-- The character class stripped by `parseMoney` (`/[₦,\s]/g`). -/
def isMoneyJunk (c : Char) : Bool := c = '₦' || c = ',' || isWs c

def cleanMoney (s : String) : List Char := s.data.filter (fun c => ¬ isMoneyJunk c)

/-- `parseMoney` from `useAnalysisStore.ts`. -/
def parseMoney : MoneyInput → JSNum
  | .nullV => .fin ⟨0, 1⟩
  | .undef => .fin ⟨0, 1⟩
  | .num n => if n.truthy then n else .fin ⟨0, 1⟩
  | .str s =>
    if s.data = [] then .fin ⟨0, 1⟩
    else
      let n := jsNumber (cleanMoney s)
      if n.isFinite then n else .fin ⟨0, 1⟩

/-- The finite value of `parseMoney` on a string field (always finite). -/
def parseMoneyQ (s : String) : Frac :=
  match parseMoney (.str s) with
  | .fin q => q
  | _ => ⟨0, 1⟩

theorem parseMoney_str_fin (s : String) :
    parseMoney (.str s) = .fin (parseMoneyQ s) := by
  unfold parseMoneyQ
  simp only [parseMoney]
  by_cases h : s.data = []
  · rw [if_pos h]
  · rw [if_neg h]
    rcases hj : jsNumber (cleanMoney s) with q | - | b
    · simp [JSNum.isFinite]
    · simp [JSNum.isFinite]
    · simp [JSNum.isFinite]

/-! ### Date normaliser `toISO` -/

def isAsciiAlpha (c : Char) : Bool :=
  (97 ≤ c.toNat && c.toNat ≤ 122) || (65 ≤ c.toNat && c.toNat ≤ 90)

/-- JS regex word character `\w` = `[A-Za-z0-9_]`. -/
def isWordChar (c : Char) : Bool := isDig c || isAsciiAlpha c || c = '_'

/-- `\b` before a word character: start of input or a non-word char before. -/
def boundaryBefore : Option Char → Bool
  | none => true
  | some p => !isWordChar p

def isSep (c : Char) : Bool := c = '/' || c = '-'

/-- `\b` after the match: end of input or a non-word char next. -/
def boundaryAfter : List Char → Bool
  | [] => true
  | c :: _ => !isWordChar c

/-- One-position matcher for the slash-or-dash numeric date pattern
(two day digits, separator, two month digits, separator, four year digits,
with word boundaries); returns the rebuilt `YYYY-MM-DD`. -/
def match2At (prev : Option Char) (l : List Char) : Option (List Char) :=
  match l with
  | a :: b :: s1 :: c :: d :: s2 :: e :: f :: g :: h :: rest =>
    if boundaryBefore prev && isDig a && isDig b && isSep s1 && isDig c && isDig d &&
        isSep s2 && isDig e && isDig f && isDig g && isDig h && boundaryAfter rest then
      some ([e, f, g, h] ++ '-' :: [c, d] ++ '-' :: [a, b])
    else none
  | _ => none

/-- Leftmost-match scan for the `DD/MM/YYYY` pattern. -/
def scan2 : Option Char → List Char → Option (List Char)
  | prev, [] => match2At prev []
  | prev, x :: t =>
    match match2At prev (x :: t) with
    | some r => some r
    | none => scan2 (some x) t

/-- One-position matcher for `\b(\d{1,2})\s+([A-Za-z]{3,})\s+(\d{4})`:
day digits, month-name run, year digits. -/
def match3At (prev : Option Char) (l : List Char) :
    Option (List Char × List Char × List Char) :=
  if !(boundaryBefore prev) then none
  else
    let parseTail : List Char → List Char → Option (List Char × List Char × List Char) :=
      fun dayChars afterDay =>
        let ws := afterDay.takeWhile isWs
        let r1 := afterDay.dropWhile isWs
        if ws = [] then none
        else
          let run := r1.takeWhile isAsciiAlpha
          let r2 := r1.dropWhile isAsciiAlpha
          if run.length < 3 then none
          else
            let ws2 := r2.takeWhile isWs
            let r3 := r2.dropWhile isWs
            if ws2 = [] then none
            else
              match r3 with
              | y1 :: y2 :: y3 :: y4 :: _ =>
                if isDig y1 && isDig y2 && isDig y3 && isDig y4 then
                  some (dayChars, run, [y1, y2, y3, y4])
                else none
              | _ => none
    match l with
    | a :: b :: t =>
      if isDig a then
        if isDig b then
          -- greedy two-digit day needs whitespace right after
          parseTail [a, b] t
        else parseTail [a] (b :: t)
      else none
    | [a] => if isDig a then parseTail [a] [] else none
    | [] => none

def scan3 : Option Char → List Char → Option (List Char × List Char × List Char)
  | prev, [] => match3At prev []
  | prev, x :: t =>
    match match3At prev (x :: t) with
    | some r => some r
    | none => scan3 (some x) t

/-- One-position matcher for `\b(\d{4})\s+([A-Za-z]{3,})\s+(\d{1,2})`. -/
def match4At (prev : Option Char) (l : List Char) :
    Option (List Char × List Char × List Char) :=
  if !(boundaryBefore prev) then none
  else
    match l with
    | a :: b :: c :: d :: t =>
      if isDig a && isDig b && isDig c && isDig d then
        let ws := t.takeWhile isWs
        let r1 := t.dropWhile isWs
        if ws = [] then none
        else
          let run := r1.takeWhile isAsciiAlpha
          let r2 := r1.dropWhile isAsciiAlpha
          if run.length < 3 then none
          else
            let ws2 := r2.takeWhile isWs
            let r3 := r2.dropWhile isWs
            if ws2 = [] then none
            else
              match r3 with
              | e1 :: e2 :: _ =>
                if isDig e1 then
                  if isDig e2 then some ([a, b, c, d], run, [e1, e2])
                  else some ([a, b, c, d], run, [e1])
                else none
              | [e1] => if isDig e1 then some ([a, b, c, d], run, [e1]) else none
              | [] => none
      else none
    | _ => none

def scan4 : Option Char → List Char → Option (List Char × List Char × List Char)
  | prev, [] => match4At prev []
  | prev, x :: t =>
    match match4At prev (x :: t) with
    | some r => some r
    | none => scan4 (some x) t

/-- The three-letter month table (plus the `sept` alias). -/
def monMap (l : List Char) : Option (List Char) :=
  if l = "jan".data then some "01".data
  else if l = "feb".data then some "02".data
  else if l = "mar".data then some "03".data
  else if l = "apr".data then some "04".data
  else if l = "may".data then some "05".data
  else if l = "jun".data then some "06".data
  else if l = "jul".data then some "07".data
  else if l = "aug".data then some "08".data
  else if l = "sep".data then some "09".data
  else if l = "sept".data then some "09".data
  else if l = "oct".data then some "10".data
  else if l = "nov".data then some "11".data
  else if l = "dec".data then some "12".data
  else none

/-- The `YYYY Mon DD` branch followed by the JS `new Date(str)` fallback;
the fallback is implementation-defined and modelled as failing (see header). -/
def toISOtail (str : List Char) : Option String :=
  match scan4 none str with
  | some (y, mon, d) =>
    match monMap (lowerL mon) with
    | some mo => some ⟨y ++ '-' :: (mo ++ '-' :: padStartL 2 '0' d)⟩
    | none => none
  | none => none

/-- The date normaliser `toISO` from `useAnalysisStore.ts`. -/
def toISO (s : String) : Option String :=
  if s.data = [] then none
  else
    let str := trimL s.data
    if (isoTripleOfL str).isSome then some ⟨str⟩
    else
      match scan2 none str with
      | some r => some ⟨r⟩
      | none =>
        match scan3 none str with
        | some (d, mon, y) =>
          match monMap (lowerL mon) with
          | some mo => some ⟨y ++ '-' :: (mo ++ '-' :: padStartL 2 '0' d)⟩
          | none => toISOtail str
        | none => toISOtail str

/-- `dateAddDays` from `useAnalysisStore.ts`: JS would throw a `RangeError`
for a string that is not a valid `YYYY-MM-DD` date; the model returns `""`
there (that path is unreachable under the validity hypotheses below). -/
def dateAddDays (iso : String) (delta : Int) : String :=
  match isoTripleOf iso with
  | some (y, m, d) =>
    if validYMD y m d then
      let rd : Int := (toRD y m d : Int) + delta
      let t := fromRD rd.toNat
      mkIso t.1 t.2.1 t.2.2
    else ""
  | none => ""

/-! ### Data model (`ParsedRow`, analysis types) -/

/-- A statement row (`ParsedRow` from `_types/index`).  The TS field
`"Check 2"` is named `check2` here. -/
structure ParsedRow where
  TXN_DATE : String
  VAL_DATE : String
  REFERENCE : String
  REMARKS : String
  DEBIT : String
  CREDIT : String
  BALANCE : String
  Check : String
  check2 : String
  deriving DecidableEq, Repr

/-- `RangePreset` from `_types/analysis-types` (the module imported by the
store; the six-value union including `last180`). -/
inductive RangePreset where
  | last30 | last60 | last90 | last180 | all | custom
  deriving DecidableEq, Repr

inductive SortKey where
  | none | largestCredit | largestDebit | txnDateAsc | txnDateDesc
  deriving DecidableEq, Repr

inductive BucketMode where
  | none | monthly | biMonthly | quarterly
  deriving DecidableEq, Repr

/-- `AnalysisFilters`; absent (`undefined`) custom bounds are `none`. -/
structure AnalysisFilters where
  preset : RangePreset
  customFrom : Option String
  customTo : Option String
  search : String
  sortBy : SortKey
  bucket : BucketMode
  deriving DecidableEq, Repr

structure Totals where
  debit : Frac
  credit : Frac
  net : Frac
  rows : Nat
  passRatio : Frac
  deriving DecidableEq, Repr

structure Bucket where
  label : String
  debit : Frac
  credit : Frac
  net : Frac
  rows : Nat
  debitCount : Nat
  creditCount : Nat
  deriving DecidableEq, Repr

structure TypeAgg where
  debit : Frac
  credit : Frac
  rows : Nat
  deriving DecidableEq, Repr

structure TypeSummary where
  transferIn : TypeAgg
  transferOut : TypeAgg
  pos : TypeAgg
  levy : TypeAgg
  airtime : TypeAgg
  data : TypeAgg
  other : TypeAgg
  deriving DecidableEq, Repr

structure RollingCredit where
  total30 : Frac
  total90 : Frac
  total180 : Frac
  avg30 : Frac
  avg90 : Frac
  avg180 : Frac
  combinedAvg : Frac
  deriving DecidableEq, Repr

inductive TxType where
  | transferIn | transferOut | pos | levy | airtime | data | other
  deriving DecidableEq, Repr

/-! ### The pipeline helpers from `useAnalysisStore.ts` -/

/-- `applySearch`. -/
def bagOf (r : ParsedRow) : List Char := lowerL (r.REMARKS.data ++ ' ' :: r.REFERENCE.data)

def searchNeedles (q : String) : List (List Char) := wsSplit (lowerL q.data)

def applySearch (rows : List ParsedRow) (q : String) : List ParsedRow :=
  if trimL q.data = [] then rows
  else rows.filter (fun r => (searchNeedles q).all (fun t => seqContains (bagOf r) t))

/-- `classifyType`. -/
def classifyType (remarks : String) : TxType :=
  let r := lowerL remarks.data
  if seqContains r "electronic money transfer levy".data then .levy
  else if startsSeq "pos ".data r || seqContains r "card payment-pos".data then .pos
  else if seqContains r "airtime".data then .airtime
  else if seqContains r "mobile data".data || seqContains r " data".data then .data
  else if startsSeq "transfer from".data r || seqContains r "received from".data then .transferIn
  else if startsSeq "transfer to".data r || startsSeq "send to".data r then .transferOut
  else .other

/-- `monthKey`: `iso.slice(0, 7)`. -/
def monthKey (iso : String) : String := ⟨iso.data.take 7⟩

/-- `Number(part)` of a split component, when it is a nonnegative integer;
every normalised date yields such components. -/
def jsNatPart (l : List Char) : Option Nat :=
  match jsNumber l with
  | .fin q => if q.den = 1 ∧ 0 ≤ q.num then some q.num.toNat else none
  | _ => none

/-- `twoMonthKey`.  The catch-all arm stands for the `NaN`/`undefined`
stringification JS would produce; unreachable for normalised dates, which
always contain two dashes with numeric components. -/
def twoMonthKey (iso : String) : String :=
  let parts := sepSplit '-' iso.data
  match jsNatPart (parts.getD 0 []), jsNatPart (parts.getD 1 []) with
  | some y, some m =>
    let start : Int := if m % 2 = 0 then (m : Int) - 1 else (m : Int)
    ⟨natDigits y ++ '-' :: (pad2I start ++ '.' :: '.' :: (natDigits y ++ '-' :: pad2I (start + 1)))⟩
  | _, _ => ⟨"NaN".data⟩

/-- `quarterKey` (`Math.floor` is `Int.fdiv`). -/
def quarterKey (iso : String) : String :=
  let parts := sepSplit '-' iso.data
  match jsNatPart (parts.getD 0 []), jsNatPart (parts.getD 1 []) with
  | some y, some m =>
    let q : Int := ((m : Int) - 1).fdiv 3 + 1
    ⟨natDigits y ++ ' ' :: 'Q' :: intDigits q⟩
  | _, _ => ⟨"NaN".data⟩

/-! ### Insertion sort standing in for `Array.prototype.sort` -/

def insertB (r : α → α → Bool) (a : α) : List α → List α
  | [] => [a]
  | b :: t => if r a b then a :: b :: t else b :: insertB r a t

def sortB (r : α → α → Bool) : List α → List α
  | [] => []
  | a :: t => insertB r a (sortB r t)

theorem mem_insertB (r : α → α → Bool) (a x : α) (l : List α) :
    x ∈ insertB r a l ↔ x = a ∨ x ∈ l := by
  induction l with
  | nil => simp [insertB]
  | cons b t ih =>
    unfold insertB
    by_cases h : r a b = true
    · rw [if_pos h]
      simp
    · rw [if_neg h]
      simp only [List.mem_cons, ih]
      tauto

theorem mem_sortB (r : α → α → Bool) (x : α) (l : List α) :
    x ∈ sortB r l ↔ x ∈ l := by
  induction l with
  | nil => simp [sortB]
  | cons b t ih =>
    unfold sortB
    rw [mem_insertB, ih]
    simp

/-- Sortedness (`Pairwise`) of insertion sort for a total transitive relation. -/
theorem pairwise_insertB (r : α → α → Bool) (a : α) (l : List α)
    (htot : ∀ x y, r x y = true ∨ r y x = true)
    (htr : ∀ x y z, r x y = true → r y z = true → r x z = true)
    (hp : l.Pairwise (fun x y => r x y = true)) :
    (insertB r a l).Pairwise (fun x y => r x y = true) := by
  induction l with
  | nil => simp [insertB]
  | cons b t ih =>
    unfold insertB
    rcases List.pairwise_cons.mp hp with ⟨hb, ht⟩
    by_cases h : r a b = true
    · rw [if_pos h]
      refine List.pairwise_cons.mpr ⟨?_, hp⟩
      intro x hx
      rcases List.mem_cons.mp hx with rfl | hx
      · exact h
      · exact htr a b x h (hb x hx)
    · rw [if_neg h]
      refine List.pairwise_cons.mpr ⟨?_, ih ht⟩
      intro x hx
      rcases (mem_insertB r a x t).mp hx with rfl | hx
      · rcases htot x b with hxb | hbx
        · exact absurd hxb h
        · exact hbx
      · exact hb x hx

theorem pairwise_sortB (r : α → α → Bool) (l : List α)
    (htot : ∀ x y, r x y = true ∨ r y x = true)
    (htr : ∀ x y z, r x y = true → r y z = true → r x z = true) :
    (sortB r l).Pairwise (fun x y => r x y = true) := by
  induction l with
  | nil => simp [sortB]
  | cons b t ih =>
    unfold sortB
    exact pairwise_insertB r b (sortB r t) htot htr ih

theorem getLastD_mem (l : List α) (d : α) (h : l ≠ []) : l.getLastD d ∈ l := by
  induction l with
  | nil => exact absurd rfl h
  | cons a t ih =>
    cases t with
    | nil => simp
    | cons b u =>
      rw [show (a :: b :: u).getLastD d = (b :: u).getLastD d by simp [List.getLastD]]
      exact List.mem_cons_of_mem a (ih (by simp))

theorem pairwise_getLastD (l : List α) (d : α) (R : α → α → Prop)
    (hrefl : ∀ x, R x x) (hp : l.Pairwise R) (x : α) (hx : x ∈ l) :
    R x (l.getLastD d) := by
  induction l with
  | nil => simp at hx
  | cons a t ih =>
    rcases List.pairwise_cons.mp hp with ⟨ha, ht⟩
    cases t with
    | nil =>
      rcases List.mem_singleton.mp hx with rfl
      exact hrefl x
    | cons b u =>
      rw [show (a :: b :: u).getLastD d = (b :: u).getLastD d by simp [List.getLastD]]
      rcases List.mem_cons.mp hx with rfl | hx
      · exact ha _ (getLastD_mem (b :: u) d (by simp))
      · exact ih ht hx

/-! ### Dataset date extremes and the sorter -/

/-- `rows.map(toISO).filter(Boolean)` (`toISO` never yields `""`, so JS
truthiness is `isSome`). -/
def txnIsos (rows : List ParsedRow) : List String :=
  rows.filterMap (fun r => toISO r.TXN_DATE)

def strLeB (a b : String) : Bool := strLe a b

def endOfDataISO (rows : List ParsedRow) : Option String :=
  let isos := txnIsos rows
  if isos = [] then none
  else some ((sortB strLeB isos).getLastD "")

def startOfDataISO (rows : List ParsedRow) : Option String :=
  let isos := txnIsos rows
  if isos = [] then none
  else some ((sortB strLeB isos).headD "")

def isoKeyOf (r : ParsedRow) : String := (toISO r.TXN_DATE).getD ""

def fracLeB (a b : Frac) : Bool := decide (a.num * b.den ≤ b.num * a.den)

/-- `sortRows`.  The `_debit`/`_credit`/`_iso` caching fields JS adds to the
sorted copies are not materialised: downstream code recomputes them from the
row fields, so they are unobservable. -/
def sortRows (rows : List ParsedRow) (k : SortKey) : List ParsedRow :=
  match k with
  | .none => rows
  | .largestCredit =>
    sortB (fun a b => fracLeB (parseMoneyQ b.CREDIT) (parseMoneyQ a.CREDIT)) rows
  | .largestDebit =>
    sortB (fun a b => fracLeB (parseMoneyQ b.DEBIT) (parseMoneyQ a.DEBIT)) rows
  | .txnDateAsc => sortB (fun a b => strLeB (isoKeyOf a) (isoKeyOf b)) rows
  | .txnDateDesc => sortB (fun a b => strLeB (isoKeyOf b) (isoKeyOf a)) rows

/-! ### Range resolution and date filtering -/

def anyISO (raw : List ParsedRow) : Bool :=
  raw.any (fun r => (toISO r.TXN_DATE).isSome)

/-- The `from`/`to` window of `recompute` (per preset). -/
def resolveRange (raw : List ParsedRow) (f : AnalysisFilters) :
    Option String × Option String :=
  let maxISO := endOfDataISO raw
  let minISO := startOfDataISO raw
  match f.preset with
  | .last30 => (maxISO.map (fun s => dateAddDays s (-29)), maxISO)
  | .last60 => (maxISO.map (fun s => dateAddDays s (-59)), maxISO)
  | .last90 => (maxISO.map (fun s => dateAddDays s (-89)), maxISO)
  | .last180 => (maxISO.map (fun s => dateAddDays s (-179)), maxISO)
  | .all => (minISO, maxISO)
  | .custom => (f.customFrom, f.customTo)

/-- JS truthiness of a `string | undefined` window bound: `undefined` and
the empty string are both falsy. -/
def optTruthy : Option String → Bool
  | none => false
  | some s => s != ""

/-- The row predicate of the date-range filter.  The JS guards are
truthiness tests (`if (!from && !to) return true`, `if (from && iso < from)`,
`if (to && iso > to)`), so an empty-string bound deactivates the window or
its own comparison exactly like an absent one. -/
def dateFilterPred (fromS toS : Option String) (r : ParsedRow) : Bool :=
  if !optTruthy fromS && !optTruthy toS then true
  else
    match toISO r.TXN_DATE with
    | none => false
    | some iso =>
      (match fromS with
       | some f => !(f != "" && strLt iso f)
       | none => true) &&
      (match toS with
       | some t => !(t != "" && strLt t iso)
       | none => true)

/-- The date-filtered base set (fail-open when no date parses at all). -/
def baseRows (raw : List ParsedRow) (f : AnalysisFilters) : List ParsedRow :=
  if anyISO raw = false then raw
  else
    let ft := resolveRange raw f
    raw.filter (dateFilterPred ft.1 ft.2)

/-! ### Aggregates -/

def checkPass (r : ParsedRow) : Bool := lowerL r.Check.data = "true".data

def sumBy (rows : List ParsedRow) (f : ParsedRow → Frac) : Frac :=
  rows.foldl (fun acc r => acc.add (f r)) Frac.zero

/-- Totals and pass ratio (the JS loop accumulates all three in one pass;
the accumulations are kept per-field here). -/
def totalsOf (rows : List ParsedRow) : Totals :=
  let debit := sumBy rows (fun r => parseMoneyQ r.DEBIT)
  let credit := sumBy rows (fun r => parseMoneyQ r.CREDIT)
  let pass := rows.countP checkPass
  { debit := debit, credit := credit, net := credit.sub debit, rows := rows.length,
    passRatio :=
      if rows.length = 0 then Frac.zero else Frac.div ⟨pass, 1⟩ ⟨rows.length, 1⟩ }

structure BAgg where
  debit : Frac
  credit : Frac
  rows : Nat
  debitCount : Nat
  creditCount : Nat
  deriving DecidableEq, Repr

def zeroBAgg : BAgg := ⟨Frac.zero, Frac.zero, 0, 0, 0⟩

/-- Keyed in-place update of the insertion-ordered map (JS `Map`). -/
def upsert (m : List (String × BAgg)) (k : String) (f : BAgg → BAgg) :
    List (String × BAgg) :=
  match m with
  | [] => [(k, f zeroBAgg)]
  | (k', v) :: t => if k' = k then (k', f v) :: t else (k', v) :: upsert t k f

def bucketKeyOf (mode : BucketMode) (r : ParsedRow) : String :=
  match toISO r.VAL_DATE with
  | some iso =>
    match mode with
    | .monthly => monthKey iso
    | .biMonthly => twoMonthKey iso
    | .quarterly => quarterKey iso
    | .none => "All"
  | none => "All"

def bucketStep (r : ParsedRow) (v : BAgg) : BAgg :=
  let d := parseMoneyQ r.DEBIT
  let c := parseMoneyQ r.CREDIT
  { debit := v.debit.add d, credit := v.credit.add c, rows := v.rows + 1,
    debitCount := v.debitCount + (if d.num ≠ 0 then 1 else 0),
    creditCount := v.creditCount + (if c.num ≠ 0 then 1 else 0) }

def bucketFold (rows : List ParsedRow) (mode : BucketMode) : List (String × BAgg) :=
  rows.foldl (fun m r => upsert m (bucketKeyOf mode r) (bucketStep r)) []

def bucketLeB (a b : Bucket) : Bool := strLe a.label b.label

def bucketsOf (rows : List ParsedRow) (mode : BucketMode) : List Bucket :=
  sortB bucketLeB
    ((bucketFold rows mode).map (fun lv =>
      { label := lv.1, debit := lv.2.debit, credit := lv.2.credit,
        net := lv.2.credit.sub lv.2.debit, rows := lv.2.rows,
        debitCount := lv.2.debitCount, creditCount := lv.2.creditCount }))

/-- The rows the classifier assigns to class `t`. -/
def classRows (rows : List ParsedRow) (t : TxType) : List ParsedRow :=
  rows.filter (fun r => classifyType r.REMARKS = t)

/-- Per-class aggregation (the JS loop updates one record in a single pass). -/
def typeAggFor (rows : List ParsedRow) (t : TxType) : TypeAgg :=
  { debit := sumBy (classRows rows t) (fun r => parseMoneyQ r.DEBIT),
    credit := sumBy (classRows rows t) (fun r => parseMoneyQ r.CREDIT),
    rows := (classRows rows t).length }

def typeSummaryOf (rows : List ParsedRow) : TypeSummary :=
  { transferIn := typeAggFor rows .transferIn,
    transferOut := typeAggFor rows .transferOut,
    pos := typeAggFor rows .pos,
    levy := typeAggFor rows .levy,
    airtime := typeAggFor rows .airtime,
    data := typeAggFor rows .data,
    other := typeAggFor rows .other }

/-- The row step of the rolling-credit accumulation. -/
def windowStep (fromS anchor : String) (sum : Frac) (r : ParsedRow) : Frac :=
  match toISO r.VAL_DATE with
  | none => sum
  | some iso =>
    if strLe fromS iso && strLe iso anchor then sum.add (parseMoneyQ r.CREDIT)
    else sum

/-- `creditInWindow` (over the raw set, anchored to the max txn date). -/
def creditInWindow (raw : List ParsedRow) (maxISO : Option String) (days : Nat) : Frac :=
  match maxISO with
  | none => Frac.zero
  | some anchor =>
    raw.foldl (windowStep (dateAddDays anchor (-((days : Int) - 1))) anchor) Frac.zero

/-- Rolling-credit summary.  The `Number.isFinite` filter of the JS code
keeps all three averages (they are finite fractions here), so the combined
average divides by 3. -/
def rollingOf (raw : List ParsedRow) (maxISO : Option String) : RollingCredit :=
  let total30 := creditInWindow raw maxISO 30
  let total90 := creditInWindow raw maxISO 90
  let total180 := creditInWindow raw maxISO 180
  let avg30 := total30.div ⟨1, 1⟩
  let avg90 := total90.div ⟨3, 1⟩
  let avg180 := total180.div ⟨6, 1⟩
  let combinedAvg := ((avg30.add avg90).add avg180).div ⟨3, 1⟩
  ⟨total30, total90, total180, avg30, avg90, avg180, combinedAvg⟩

/-! ### `recompute` and the store -/

structure DerivedState where
  filtered : List ParsedRow
  totals : Totals
  buckets : List Bucket
  typeSummary : TypeSummary
  rollingCredit : RollingCredit
  deriving DecidableEq, Repr

/-- The non-empty path of `recompute`, producing the fresh derived snapshot. -/
def recomputeD (raw : List ParsedRow) (f : AnalysisFilters) : DerivedState :=
  let maxISO := endOfDataISO raw
  let base := baseRows raw f
  let searched := applySearch base f.search
  let sorted := sortRows searched f.sortBy
  { filtered := sorted,
    totals := totalsOf sorted,
    buckets := bucketsOf sorted f.bucket,
    typeSummary := typeSummaryOf sorted,
    rollingCredit := rollingOf raw maxISO }

structure StoreState where
  raw : List ParsedRow
  filtered : List ParsedRow
  totals : Totals
  buckets : List Bucket
  typeSummary : TypeSummary
  filters : AnalysisFilters
  rollingCredit : RollingCredit
  deriving DecidableEq, Repr

def zeroTotals : Totals := ⟨Frac.zero, Frac.zero, Frac.zero, 0, Frac.zero⟩

def zeroTypeAgg : TypeAgg := ⟨Frac.zero, Frac.zero, 0⟩

def zeroTypeSummary : TypeSummary :=
  ⟨zeroTypeAgg, zeroTypeAgg, zeroTypeAgg, zeroTypeAgg, zeroTypeAgg, zeroTypeAgg, zeroTypeAgg⟩

def zeroRolling : RollingCredit :=
  ⟨Frac.zero, Frac.zero, Frac.zero, Frac.zero, Frac.zero, Frac.zero, Frac.zero⟩

/-- `recompute`: the empty-raw branch resets `filtered`, `totals`, `buckets`
and `typeSummary` only — exactly the fields of its `set(...)` call
(`rollingCredit` is not among them). -/
def recomputeStore (s : StoreState) : StoreState :=
  if s.raw = [] then
    { s with filtered := [], totals := zeroTotals, buckets := [],
             typeSummary := zeroTypeSummary }
  else
    let d := recomputeD s.raw s.filters
    { s with filtered := d.filtered, totals := d.totals, buckets := d.buckets,
             typeSummary := d.typeSummary, rollingCredit := d.rollingCredit }

def setRaw (s : StoreState) (rows : List ParsedRow) : StoreState :=
  recomputeStore { s with raw := rows }

def setFilters (s : StoreState) (f : AnalysisFilters) : StoreState :=
  recomputeStore { s with filters := f }

/-- The store's initial state. -/
def initialState : StoreState :=
  { raw := [], filtered := [], totals := zeroTotals, buckets := [],
    typeSummary := zeroTypeSummary,
    filters := ⟨.all, none, none, "", .none, .monthly⟩,
    rollingCredit := zeroRolling }

/-! ### Spec-side predicates (modelled from the spec's words, for
refinement-style comparison with the code) -/

/-- The spec's DATA rule: "contains \"mobile data\" or a standalone \"data\"
token (a whole word)".  Tokens are whitespace-separated words. -/
def specDataTokenRule (remarks : String) : Bool :=
  let r := lowerL remarks.data
  seqContains r "mobile data".data || (wsSplit r).any (fun t => t = "data".data)

/-- The spec's search tokens: "splits the query on whitespace into lowercase
tokens". -/
def specTokens (q : String) : List (List Char) := (wsSplit q.data).map lowerL

/-- First three classifier rules, as named conditions. -/
def levyHit (s : String) : Bool :=
  seqContains (lowerL s.data) "electronic money transfer levy".data

def posHit (s : String) : Bool :=
  startsSeq "pos ".data (lowerL s.data) ||
    seqContains (lowerL s.data) "card payment-pos".data

def airtimeHit (s : String) : Bool := seqContains (lowerL s.data) "airtime".data

def dataHit (s : String) : Bool :=
  seqContains (lowerL s.data) "mobile data".data ||
    seqContains (lowerL s.data) " data".data

/-! ### Example rows used by closed theorems -/

/-- A single credit row: txn date `2025-06-30`, value date `2025-06-15`,
credit 300, passing check. -/
def rowC1 : ParsedRow :=
  ⟨"2025-06-30", "2025-06-15", "ref1", "Transfer from Ada", "", "300", "300",
    "true", "ok"⟩

/-- A row with a parseable txn date and debit 5. -/
def rowC2a : ParsedRow := ⟨"2025-01-02", "2025-01-02", "r", "x", "5", "", "", "true", ""⟩

/-- A row whose txn date does not normalise (empty string) and debit 7. -/
def rowC2b : ParsedRow := ⟨"", "", "r2", "y", "7", "", "", "true", ""⟩

/-- The store's default filters (`preset: "all"`, empty search, no sort,
monthly buckets). -/
def defaultFilters : AnalysisFilters := ⟨.all, none, none, "", .none, .monthly⟩

/-- Remarks `ab` and reference `cd`: the token `bc` is a substring of the
plain concatenation `abcd` but not of the space-joined search bag. -/
def rowC7 : ParsedRow := ⟨"", "", "cd", "ab", "", "", "", "", ""⟩

/-- C1: the empty-raw recompute is claimed to zero every derived value,
rolling credit included.  The code's reset branch zeroes `filtered`,
`totals`, `buckets` and `typeSummary` but leaves `rollingCredit` at its
previous value: after loading a 300-credit dataset and then an empty one,
the stale rolling totals survive (`total30` is still 300, not 0). -/
theorem claim_C1_stale_rolling_on_empty :
    (setRaw (setRaw initialState [rowC1]) []).filtered = [] ∧
    (setRaw (setRaw initialState [rowC1]) []).totals = zeroTotals ∧
    (setRaw (setRaw initialState [rowC1]) []).buckets = [] ∧
    (setRaw (setRaw initialState [rowC1]) []).typeSummary = zeroTypeSummary ∧
    (setRaw (setRaw initialState [rowC1]) []).rollingCredit
      = (setRaw initialState [rowC1]).rollingCredit ∧
    (setRaw (setRaw initialState [rowC1]) []).rollingCredit.total30 = ⟨300, 1⟩ := by
  refine ⟨rfl, rfl, rfl, rfl, rfl, by decide⟩

/-- C5 counterexample: the money parser is claimed to always return a finite
number, with 0 for anything not parseable as a decimal.  A number input of
`Infinity` is returned unchanged (not finite), and the hex string `"0x10"`
(not a decimal numeral) converts to 16, not 0. -/
theorem claim_C5_counterexample :
    parseMoney (.num (.inf false)) = .inf false ∧
    JSNum.isFinite (.inf false) = false ∧
    parseMoney (.str "0x10") = .fin ⟨16, 1⟩ := by
  refine ⟨by decide, rfl, by decide⟩

/-- C5 (amended): the money parser returns a finite value for every string,
null and undefined input (0 for null/undefined/empty and for strings whose
JS numeric conversion is not finite); a number input is returned unchanged
when truthy, so non-finite outputs occur exactly at `±Infinity` inputs. -/
theorem claim_C5_money_parser_total :
    (∀ s : String, (parseMoney (.str s)).isFinite = true) ∧
    parseMoney .nullV = .fin ⟨0, 1⟩ ∧
    parseMoney .undef = .fin ⟨0, 1⟩ ∧
    parseMoney (.str "") = .fin ⟨0, 1⟩ ∧
    (∀ n : JSNum, (parseMoney (.num n)).isFinite = true ∨
      ∃ b, n = .inf b ∧ parseMoney (.num n) = .inf b) ∧
    (∀ s : String, (jsNumber (cleanMoney s)).isFinite = false →
      parseMoney (.str s) = .fin ⟨0, 1⟩) := by
  refine ⟨?_, rfl, rfl, by decide, ?_, ?_⟩
  · intro s
    rw [parseMoney_str_fin s]
    rfl
  · intro n
    rcases n with q | - | b
    · left
      simp only [parseMoney]
      by_cases h : (JSNum.fin q).truthy = true
      · rw [if_pos h]; rfl
      · rw [if_neg h]; rfl
    · left
      simp only [parseMoney]
      rw [if_neg (by simp [JSNum.truthy])]
      rfl
    · right
      exact ⟨b, rfl, by simp only [parseMoney]; rw [if_pos (by simp [JSNum.truthy])]⟩
  · intro s hfin
    simp only [parseMoney]
    by_cases h : s.data = []
    · rw [if_pos h]
    · rw [if_neg h]
      simp only [hfin]
      rw [if_neg (by simp [hfin])]

/-- C5 witness: the last conjunct applied at the unparseable string `"abc"`. -/
theorem claim_C5_witness :
    (jsNumber (cleanMoney "abc")).isFinite = false ∧
      parseMoney (.str "abc") = .fin ⟨0, 1⟩ :=
  ⟨by decide, claim_C5_money_parser_total.2.2.2.2.2 "abc" (by decide)⟩

/-- C6 counterexample: the DATA rule is claimed to match a standalone
`data` token, including as the first token.  `"data bundle"` starts with the
standalone token but classifies as OTHER (the code looks for the substring
`" data"`), while `"big database fee"` has no standalone `data` token yet
classifies as DATA (`" database"` contains `" data"`). -/
theorem claim_C6_counterexample :
    classifyType "data bundle" = TxType.other ∧
    specDataTokenRule "data bundle" = true ∧
    classifyType "big database fee" = TxType.data ∧
    specDataTokenRule "big database fee" = false := by
  refine ⟨by decide, by decide, by decide, by decide⟩

/-- C6 (amended): when the levy, POS and airtime rules all miss, the
classifier returns DATA exactly when the lowercased remarks contain
`"mobile data"` or the substring `" data"` (a space immediately followed by
`data`, however the word continues) — so a leading `data` token does not
match, and words like `database` after a space do. -/
theorem claim_C6_data_rule (s : String) (h1 : levyHit s = false)
    (h2 : posHit s = false) (h3 : airtimeHit s = false) :
    classifyType s = TxType.data ↔ dataHit s = true := by
  unfold levyHit at h1
  unfold posHit at h2
  unfold airtimeHit at h3
  rw [Bool.or_eq_false_iff] at h2
  unfold classifyType dataHit
  rw [if_neg (by simp [h1]), if_neg (by simp [h2.1, h2.2]), if_neg (by simp [h3])]
  by_cases hd : (seqContains (lowerL s.data) "mobile data".data ||
      seqContains (lowerL s.data) " data".data) = true
  · rw [if_pos hd]
    simp [hd]
  · rw [if_neg hd]
    simp only [Bool.not_eq_true] at hd
    constructor
    · intro hcl
      exfalso
      revert hcl
      split
      · intro hcl; exact absurd hcl (by simp)
      · split
        · intro hcl; exact absurd hcl (by simp)
        · intro hcl; exact absurd hcl (by simp)
    · intro hcl
      rw [hcl] at hd
      exact absurd hd (by simp)

/-- C6 witness: the amended rule applied at `"big database fee"`. -/
theorem claim_C6_witness : classifyType "big database fee" = TxType.data :=
  (claim_C6_data_rule "big database fee" (by decide) (by decide) (by decide)).mpr
    (by decide)

/-- C7 counterexample: the search bag is claimed to be the concatenation of
remarks and reference.  The code joins them with a space: for remarks `ab`,
reference `cd`, the query `bc` is a substring of the plain concatenation
`abcd`, yet the row is filtered out. -/
theorem claim_C7_counterexample :
    applySearch [rowC7] "bc" = [] ∧
    seqContains (lowerL ("ab".data ++ "cd".data)) "bc".data = true := by
  refine ⟨by decide, by decide⟩

theorem isWs_asciiLower (c : Char) : isWs (asciiLower c) = isWs c := by
  unfold asciiLower
  split <;> rfl

theorem lowerL_eq_nil (l : List Char) : lowerL l = [] ↔ l = [] := by
  cases l <;> simp [lowerL]

theorem wsSplitAux_lower (l : List Char) : ∀ cur,
    wsSplitAux (lowerL l) (lowerL cur) = (wsSplitAux l cur).map lowerL := by
  induction l with
  | nil =>
    intro cur
    cases cur with
    | nil => rfl
    | cons a cs =>
      show wsSplitAux [] (asciiLower a :: lowerL cs) = _
      unfold wsSplitAux
      rw [if_neg (by simp), if_neg (by simp)]
      simp [lowerL, List.map_reverse, List.map_cons]
  | cons c t ih =>
    intro cur
    show wsSplitAux (asciiLower c :: lowerL t) (lowerL cur) = _
    unfold wsSplitAux
    rw [isWs_asciiLower]
    by_cases hw : isWs c = true
    · rw [if_pos hw, if_pos hw]
      cases cur with
      | nil =>
        show wsSplitAux (lowerL t) [] = _
        rw [if_pos rfl]
        exact ih []
      | cons a cs =>
        rw [if_neg (by simp [lowerL]), if_neg (by simp)]
        rw [List.map_cons]
        refine congrArg₂ List.cons ?_ ?_
        · simp [lowerL, List.map_reverse, List.map_cons]
        · exact ih []
    · rw [if_neg hw, if_neg hw]
      exact ih (c :: cur)

theorem wsSplit_lower (l : List Char) :
    wsSplit (lowerL l) = (wsSplit l).map lowerL := wsSplitAux_lower l []

theorem wsSplit_all_ws (l : List Char) (h : ∀ c ∈ l, isWs c = true) :
    wsSplit l = [] := by
  unfold wsSplit
  induction l with
  | nil => rfl
  | cons c t ih =>
    unfold wsSplitAux
    rw [if_pos (h c (by simp)), if_pos rfl]
    exact ih (fun x hx => h x (by simp [hx]))

theorem trimL_all_ws {l : List Char} (h : trimL l = []) : ∀ c ∈ l, isWs c = true := by
  unfold trimL at h
  rw [List.reverse_eq_nil_iff] at h
  rw [List.dropWhile_eq_nil_iff] at h
  intro c hc
  rcases List.mem_append.mp (by rw [List.takeWhile_append_dropWhile]; exact hc :
      c ∈ l.takeWhile isWs ++ l.dropWhile isWs) with hm | hm
  · exact List.mem_takeWhile_imp hm
  · exact h c (List.mem_reverse.mpr hm)

/-- C7 (amended): the search filter keeps a row exactly when every
whitespace-separated lowercase token of the query is a substring of the
lowercased SPACE-JOINED concatenation of remarks and reference (the bag is
`remarks + " " + reference`); an empty or whitespace-only query keeps all
rows (its token list is empty). -/
theorem claim_C7_search_semantics (rows : List ParsedRow) (q : String) :
    applySearch rows q
      = rows.filter (fun r => (specTokens q).all (fun t => seqContains (bagOf r) t)) := by
  unfold applySearch
  by_cases h : trimL q.data = []
  · rw [if_pos h]
    unfold specTokens
    rw [wsSplit_all_ws q.data (trimL_all_ws h)]
    show rows = rows.filter (fun _ => true)
    rw [List.filter_true]
  · rw [if_neg h]
    unfold searchNeedles specTokens
    rw [wsSplit_lower]

theorem countP_le_len (p : α → Bool) (l : List α) : l.countP p ≤ l.length :=
  List.countP_le_length p

/-- The totals invariant, shown for the totals any recompute writes. -/
theorem totalsOf_invariant (rows : List ParsedRow) :
    (totalsOf rows).net = (totalsOf rows).credit.sub (totalsOf rows).debit ∧
    Frac.le Frac.zero (totalsOf rows).passRatio ∧
    Frac.le (totalsOf rows).passRatio (Frac.ofInt 1) ∧
    ((totalsOf rows).rows = 0 → (totalsOf rows).passRatio = Frac.zero) := by
  refine ⟨rfl, ?_, ?_, ?_⟩
  all_goals unfold totalsOf
  all_goals simp only
  · by_cases h : rows.length = 0
    · rw [if_pos h]
      unfold Frac.le Frac.zero Frac.ofInt
      simp
    · rw [if_neg h]
      unfold Frac.le Frac.zero Frac.ofInt Frac.div
      simp only
      have : (0 : Int) ≤ rows.countP checkPass := by positivity
      nlinarith [this]
  · by_cases h : rows.length = 0
    · rw [if_pos h]
      unfold Frac.le Frac.zero Frac.ofInt
      simp
    · rw [if_neg h]
      unfold Frac.le Frac.ofInt Frac.div
      simp only
      have hle : rows.countP checkPass ≤ rows.length := countP_le_len _ _
      have : (rows.countP checkPass : Int) ≤ rows.length := by exact_mod_cast hle
      nlinarith [this]
  · intro h
    rw [if_pos h]

/-- C9: for every store state (hence every raw row set and filter state),
the recomputed totals satisfy `net = credit - debit`, the pass ratio lies in
`[0, 1]`, and it is `0` when the filtered row count is `0`. -/
theorem claim_C9_totals_invariant (s : StoreState) :
    (recomputeStore s).totals.net
        = (recomputeStore s).totals.credit.sub (recomputeStore s).totals.debit ∧
    Frac.le Frac.zero (recomputeStore s).totals.passRatio ∧
    Frac.le (recomputeStore s).totals.passRatio (Frac.ofInt 1) ∧
    ((recomputeStore s).totals.rows = 0 →
      (recomputeStore s).totals.passRatio = Frac.zero) := by
  unfold recomputeStore
  by_cases h : s.raw = []
  · rw [if_pos h]
    refine ⟨rfl, ?_, ?_, fun _ => rfl⟩
    · show Frac.le Frac.zero zeroTotals.passRatio
      decide
    · show Frac.le zeroTotals.passRatio (Frac.ofInt 1)
      decide
  · rw [if_neg h]
    show (recomputeD s.raw s.filters).totals.net = _ ∧ _
    unfold recomputeD
    simp only
    exact totalsOf_invariant _

/-- A one-row store state for instantiating the totals invariant. -/
def storeC9 : StoreState := { initialState with raw := [rowC1] }

/-- C9 witness: the invariant instantiated at the one-row store, with the
row-count-zero clause discharged on the empty store. -/
theorem claim_C9_witness :
    Frac.le Frac.zero (recomputeStore storeC9).totals.passRatio ∧
    (recomputeStore initialState).totals.passRatio = Frac.zero :=
  ⟨(claim_C9_totals_invariant storeC9).2.1,
   (claim_C9_totals_invariant initialState).2.2.2 (by decide)⟩

/-- Custom preset with both bounds unset: a filter state whose date window
is inactive even when some date parses. -/
def customNoBounds : AnalysisFilters := ⟨.custom, none, none, "", .none, .monthly⟩

/-- Custom preset with an empty-string `from` bound (what `FilterControls`
stores when the date input is cleared) and no `to` bound: both bounds are
falsy, so the window is inactive as well. -/
def customEmptyFrom : AnalysisFilters :=
  ⟨.custom, some "", none, "", .none, .monthly⟩

/-- C2 counterexample: a row with an unparseable transaction date is claimed
to still count in the totals whenever some other row's date parses.  Under
the default `all` preset the resolved window is the dataset's own min/max,
and the filter drops every row whose date does not normalise: of the two
rows (debits 5 and 7) only one reaches the totals. -/
theorem claim_C2_counterexample :
    (toISO rowC2a.TXN_DATE).isSome = true ∧
    toISO rowC2b.TXN_DATE = none ∧
    [rowC2a, rowC2b].length = 2 ∧
    (recomputeD [rowC2a, rowC2b] defaultFilters).totals.rows = 1 ∧
    (recomputeD [rowC2a, rowC2b] defaultFilters).totals.debit = ⟨5, 1⟩ := by
  refine ⟨by decide, by decide, rfl, by decide, by decide⟩

/-- C2 (amended): a row whose transaction date fails to normalise is kept in
the filtered base (and hence counts in totals, search and type
classification) only when date filtering is inactive: either no row's date
parses at all, or both resolved window bounds are falsy — absent or the
empty string (the custom preset with each bound unset or cleared to `""`).
Whenever a truthy window bound is active, such rows are excluded from all
filtered-set-derived values, not only from date logic. -/
theorem claim_C2_unparseable_date_exclusion (raw : List ParsedRow)
    (f : AnalysisFilters) :
    (∀ r ∈ baseRows raw f, toISO r.TXN_DATE = none →
      (anyISO raw = false ∨
        (optTruthy (resolveRange raw f).1 = false ∧
         optTruthy (resolveRange raw f).2 = false))) ∧
    (anyISO raw = true → optTruthy (resolveRange raw f).1 = false →
      optTruthy (resolveRange raw f).2 = false →
      ∀ r ∈ raw, r ∈ baseRows raw f) := by
  constructor
  · intro r hr hnone
    unfold baseRows at hr
    by_cases ha : anyISO raw = false
    · exact Or.inl ha
    · rw [if_neg ha] at hr
      rcases List.mem_filter.mp hr with ⟨-, hpred⟩
      by_cases hb : (!optTruthy (resolveRange raw f).1 &&
          !optTruthy (resolveRange raw f).2) = true
      · rw [Bool.and_eq_true, Bool.not_eq_true', Bool.not_eq_true'] at hb
        exact Or.inr hb
      · exfalso
        unfold dateFilterPred at hpred
        rw [if_neg hb, hnone] at hpred
        simp at hpred
  · intro ha hfrom hto r hr
    unfold baseRows
    rw [if_neg (by rw [ha]; simp)]
    refine List.mem_filter.mpr ⟨hr, ?_⟩
    unfold dateFilterPred
    rw [if_pos (by rw [hfrom, hto]; rfl)]

/-- C2 witness: with the custom preset the unparseable-date row is retained
in the base set both when the bounds are unset and when the `from` bound is
the (falsy) empty string. -/
theorem claim_C2_witness :
    rowC2b ∈ baseRows [rowC2a, rowC2b] customNoBounds ∧
    rowC2b ∈ baseRows [rowC2a, rowC2b] customEmptyFrom :=
  ⟨(claim_C2_unparseable_date_exclusion [rowC2a, rowC2b] customNoBounds).2
     (by decide) (by decide) (by decide) rowC2b (by simp),
   (claim_C2_unparseable_date_exclusion [rowC2a, rowC2b] customEmptyFrom).2
     (by decide) (by decide) (by decide) rowC2b (by simp)⟩

/-! ### Noninterference of the second consistency flag -/

/-- Erase the `"Check 2"` field. -/
def stripC2 (r : ParsedRow) : ParsedRow := { r with check2 := "" }

theorem txnIsos_strip (raw : List ParsedRow) :
    txnIsos (raw.map stripC2) = txnIsos raw := by
  unfold txnIsos
  rw [List.filterMap_map]
  rfl

theorem anyISO_strip (raw : List ParsedRow) :
    anyISO (raw.map stripC2) = anyISO raw := by
  unfold anyISO
  rw [List.any_map]
  rfl

theorem endOfDataISO_strip (raw : List ParsedRow) :
    endOfDataISO (raw.map stripC2) = endOfDataISO raw := by
  unfold endOfDataISO
  rw [txnIsos_strip]

theorem startOfDataISO_strip (raw : List ParsedRow) :
    startOfDataISO (raw.map stripC2) = startOfDataISO raw := by
  unfold startOfDataISO
  rw [txnIsos_strip]

theorem resolveRange_strip (raw : List ParsedRow) (f : AnalysisFilters) :
    resolveRange (raw.map stripC2) f = resolveRange raw f := by
  unfold resolveRange
  rw [endOfDataISO_strip, startOfDataISO_strip]

theorem baseRows_strip (raw : List ParsedRow) (f : AnalysisFilters) :
    baseRows (raw.map stripC2) f = (baseRows raw f).map stripC2 := by
  unfold baseRows
  rw [anyISO_strip, resolveRange_strip]
  by_cases h : anyISO raw = false
  · rw [if_pos h, if_pos h]
  · rw [if_neg h, if_neg h]
    rw [List.filter_map]
    rfl

theorem applySearch_strip (l : List ParsedRow) (q : String) :
    applySearch (l.map stripC2) q = (applySearch l q).map stripC2 := by
  unfold applySearch
  by_cases h : trimL q.data = []
  · rw [if_pos h, if_pos h]
  · rw [if_neg h, if_neg h]
    rw [List.filter_map]
    rfl

theorem insertB_map (f : α → α) (r r' : α → α → Bool)
    (h : ∀ a b, r' (f a) (f b) = r a b) (a : α) (l : List α) :
    insertB r' (f a) (l.map f) = (insertB r a l).map f := by
  induction l with
  | nil => rfl
  | cons b t ih =>
    show insertB r' (f a) (f b :: t.map f) = _
    unfold insertB
    rw [h a b]
    by_cases hr : r a b = true
    · rw [if_pos hr, if_pos hr]
      rfl
    · rw [if_neg hr, if_neg hr]
      rw [List.map_cons, ih]

theorem sortB_map (f : α → α) (r r' : α → α → Bool)
    (h : ∀ a b, r' (f a) (f b) = r a b) (l : List α) :
    sortB r' (l.map f) = (sortB r l).map f := by
  induction l with
  | nil => rfl
  | cons b t ih =>
    show insertB r' (f b) (sortB r' (t.map f)) = _
    rw [ih]
    exact insertB_map f r r' h b (sortB r t)

theorem sortRows_strip (l : List ParsedRow) (k : SortKey) :
    sortRows (l.map stripC2) k = (sortRows l k).map stripC2 := by
  unfold sortRows
  cases k with
  | none => rfl
  | largestCredit => exact sortB_map stripC2 _ _ (fun a b => rfl) l
  | largestDebit => exact sortB_map stripC2 _ _ (fun a b => rfl) l
  | txnDateAsc => exact sortB_map stripC2 _ _ (fun a b => rfl) l
  | txnDateDesc => exact sortB_map stripC2 _ _ (fun a b => rfl) l

theorem sumBy_strip (l : List ParsedRow) (g : ParsedRow → Frac)
    (h : ∀ r, g (stripC2 r) = g r) : sumBy (l.map stripC2) g = sumBy l g := by
  unfold sumBy
  rw [List.foldl_map]
  refine congrFun (congrFun (congrArg List.foldl (funext fun acc => funext fun r => ?_)) _) _
  rw [h r]

theorem totalsOf_strip (l : List ParsedRow) :
    totalsOf (l.map stripC2) = totalsOf l := by
  unfold totalsOf
  rw [sumBy_strip l (fun r => parseMoneyQ r.DEBIT) (fun r => rfl),
      sumBy_strip l (fun r => parseMoneyQ r.CREDIT) (fun r => rfl)]
  rw [show (l.map stripC2).countP checkPass = l.countP checkPass by
    rw [List.countP_map]; rfl]
  rw [List.length_map]

theorem bucketFold_strip (l : List ParsedRow) (mode : BucketMode) :
    bucketFold (l.map stripC2) mode = bucketFold l mode := by
  unfold bucketFold
  rw [List.foldl_map]
  rfl

theorem bucketsOf_strip (l : List ParsedRow) (mode : BucketMode) :
    bucketsOf (l.map stripC2) mode = bucketsOf l mode := by
  unfold bucketsOf
  rw [bucketFold_strip]

theorem classRows_strip (l : List ParsedRow) (t : TxType) :
    classRows (l.map stripC2) t = (classRows l t).map stripC2 := by
  unfold classRows
  rw [List.filter_map]
  rfl

theorem typeAggFor_strip (l : List ParsedRow) (t : TxType) :
    typeAggFor (l.map stripC2) t = typeAggFor l t := by
  unfold typeAggFor
  rw [classRows_strip]
  rw [sumBy_strip (classRows l t) (fun r => parseMoneyQ r.DEBIT) (fun r => rfl),
      sumBy_strip (classRows l t) (fun r => parseMoneyQ r.CREDIT) (fun r => rfl),
      List.length_map]

theorem typeSummaryOf_strip (l : List ParsedRow) :
    typeSummaryOf (l.map stripC2) = typeSummaryOf l := by
  unfold typeSummaryOf
  rw [typeAggFor_strip, typeAggFor_strip, typeAggFor_strip, typeAggFor_strip,
      typeAggFor_strip, typeAggFor_strip, typeAggFor_strip]

theorem creditInWindow_strip (raw : List ParsedRow) (m : Option String) (d : Nat) :
    creditInWindow (raw.map stripC2) m d = creditInWindow raw m d := by
  cases m with
  | none => rfl
  | some anchor =>
    show (raw.map stripC2).foldl
        (windowStep (dateAddDays anchor (-((d : Int) - 1))) anchor) Frac.zero = _
    rw [List.foldl_map]
    rfl

theorem rollingOf_strip (raw : List ParsedRow) (m : Option String) :
    rollingOf (raw.map stripC2) m = rollingOf raw m := by
  unfold rollingOf
  rw [creditInWindow_strip, creditInWindow_strip, creditInWindow_strip]

/-- The filtered-and-sorted set, up to the erased flag, is a function of the
rows up to the erased flag. -/
theorem sorted_strip_eq (raw1 raw2 : List ParsedRow) (f : AnalysisFilters)
    (H : raw1.map stripC2 = raw2.map stripC2) :
    (sortRows (applySearch (baseRows raw1 f) f.search) f.sortBy).map stripC2
      = (sortRows (applySearch (baseRows raw2 f) f.search) f.sortBy).map stripC2 := by
  rw [← sortRows_strip, ← applySearch_strip, ← baseRows_strip, H,
      baseRows_strip, applySearch_strip, sortRows_strip]

/-- C10: raw row sets that differ only in the `"Check 2"` field produce the
same derived analytics: equal totals (pass ratio included), buckets, type
summary and rolling credit, and filtered row lists equal up to that field.
Only the first flag (`Check`) can influence any derived output. -/
theorem claim_C10_check2_noninterference (raw1 raw2 : List ParsedRow)
    (f : AnalysisFilters) (H : raw1.map stripC2 = raw2.map stripC2) :
    (recomputeD raw1 f).totals = (recomputeD raw2 f).totals ∧
    (recomputeD raw1 f).buckets = (recomputeD raw2 f).buckets ∧
    (recomputeD raw1 f).typeSummary = (recomputeD raw2 f).typeSummary ∧
    (recomputeD raw1 f).rollingCredit = (recomputeD raw2 f).rollingCredit ∧
    (recomputeD raw1 f).filtered.map stripC2
      = (recomputeD raw2 f).filtered.map stripC2 := by
  have hs := sorted_strip_eq raw1 raw2 f H
  unfold recomputeD
  simp only
  refine ⟨?_, ?_, ?_, ?_, hs⟩
  · rw [← totalsOf_strip, hs, totalsOf_strip]
  · rw [← bucketsOf_strip, hs, bucketsOf_strip]
  · rw [← typeSummaryOf_strip, hs, typeSummaryOf_strip]
  · rw [← rollingOf_strip raw1, H, rollingOf_strip]
    rw [show endOfDataISO raw1 = endOfDataISO raw2 by
      rw [← endOfDataISO_strip raw1, H, endOfDataISO_strip]]

/-- A copy of the credit row with a different `"Check 2"` value. -/
def rowC10 : ParsedRow := { rowC1 with check2 := "mismatch" }

/-- C10 witness: the one-row datasets differing only in `"Check 2"` get
identical totals. -/
theorem claim_C10_witness :
    (recomputeD [rowC1] defaultFilters).totals
      = (recomputeD [rowC10] defaultFilters).totals :=
  (claim_C10_check2_noninterference [rowC1] [rowC10] defaultFilters (by decide)).1

/-! ### `Number()` on all-digit strings (date-key components) -/

theorem takeWhile_all {p : α → Bool} {l : List α} (h : ∀ a ∈ l, p a = true) :
    l.takeWhile p = l := by
  induction l with
  | nil => rfl
  | cons a t ih =>
    rw [List.takeWhile_cons, if_pos (h a (by simp))]
    rw [ih (fun x hx => h x (by simp [hx]))]

theorem dropWhile_all {p : α → Bool} {l : List α} (h : ∀ a ∈ l, p a = true) :
    l.dropWhile p = [] := by
  induction l with
  | nil => rfl
  | cons a t ih =>
    rw [List.dropWhile_cons, if_pos (h a (by simp))]
    exact ih (fun x hx => h x (by simp [hx]))

theorem parseDec_digits (l : List Char) (hne : l ≠ [])
    (hd : ∀ c ∈ l, isDig c = true) :
    parseDec false l = .fin ⟨(digitsVal l : Int), 1⟩ := by
  unfold parseDec
  rw [takeWhile_all hd, dropWhile_all hd]
  show (if l = [] then JSNum.nan else .fin (decValue false l [] 0))
      = .fin ⟨(digitsVal l : Int), 1⟩
  rw [if_neg hne]
  unfold decValue
  simp only [List.append_nil, List.length_nil]
  norm_num

theorem jsNumber_digits (l : List Char) (hne : l ≠ [])
    (hd : ∀ c ∈ l, isDig c = true) :
    jsNumber l = .fin ⟨(digitsVal l : Int), 1⟩ := by
  rw [jsNumber.eq_def]
  split
  · exact absurd rfl hne
  · exact absurd (hd 'x' (by simp)) (by decide)
  · exact absurd (hd 'X' (by simp)) (by decide)
  · exact absurd (hd 'o' (by simp)) (by decide)
  · exact absurd (hd 'O' (by simp)) (by decide)
  · exact absurd (hd 'b' (by simp)) (by decide)
  · exact absurd (hd 'B' (by simp)) (by decide)
  · rw [if_neg (by
      rintro (h | h)
      · exact absurd (hd 'I' (by rw [h]; simp)) (by decide)
      · exact absurd (hd '+' (by rw [h]; simp)) (by decide))]
    rw [if_neg (by
      intro h
      exact absurd (hd '-' (by rw [h]; simp)) (by decide))]
    split
    · exact absurd (hd '+' (by simp)) (by decide)
    · exact absurd (hd '-' (by simp)) (by decide)
    · exact parseDec_digits l hne hd

theorem jsNatPart_digits (l : List Char) (hne : l ≠ [])
    (hd : ∀ c ∈ l, isDig c = true) : jsNatPart l = some (digitsVal l) := by
  unfold jsNatPart
  rw [jsNumber_digits l hne hd]
  show (if (1 : Int) = 1 ∧ (0 : Int) ≤ (digitsVal l : Int) then
      some ((digitsVal l : Int)).toNat else none) = some (digitsVal l)
  rw [if_pos ⟨rfl, by positivity⟩]
  simp

theorem pad2_digits (m : Nat) (hm : m < 100) : ∀ c ∈ pad2 m, isDig c = true := by
  rw [pad2_eq m hm]
  intro c hc
  rcases List.mem_cons.mp hc with rfl | hc
  · exact isDig_dchar _ (by omega)
  · rcases List.mem_singleton.mp hc with rfl
    exact isDig_dchar _ (by omega)

theorem pad4_digits (y : Nat) (hy : y < 10000) : ∀ c ∈ pad4 y, isDig c = true := by
  rw [pad4_decomp y hy]
  intro c hc
  rcases List.mem_append.mp hc with hc | hc
  · exact pad2_digits (y / 100) (by omega) c hc
  · exact pad2_digits (y % 100) (by omega) c hc

theorem digitsVal_pad2 (m : Nat) (hm : m < 100) : digitsVal (pad2 m) = m := by
  rw [pad2_eq m hm]
  show List.foldl (fun a c => 10 * a + digitVal c) 0 [dchar (m / 10), dchar (m % 10)] = m
  simp only [List.foldl]
  rw [digitVal_dchar (m / 10) (by omega), digitVal_dchar (m % 10) (by omega)]
  omega

theorem digitsVal_pad4 (y : Nat) (hy : y < 10000) : digitsVal (pad4 y) = y := by
  rw [pad4_decomp y hy, pad2_eq (y / 100) (by omega), pad2_eq (y % 100) (by omega)]
  show List.foldl (fun a c => 10 * a + digitVal c) 0
    [dchar (y / 100 / 10), dchar (y / 100 % 10), dchar (y % 100 / 10), dchar (y % 100 % 10)] = y
  simp only [List.foldl]
  rw [digitVal_dchar (y / 100 / 10) (by omega), digitVal_dchar (y / 100 % 10) (by omega),
      digitVal_dchar (y % 100 / 10) (by omega), digitVal_dchar (y % 100 % 10) (by omega)]
  omega

theorem pad2_ne_nil (m : Nat) (hm : m < 100) : pad2 m ≠ [] := by
  rw [pad2_eq m hm]
  simp

theorem pad4_ne_nil (y : Nat) (hy : y < 10000) : pad4 y ≠ [] := by
  intro h
  have := pad4_len y hy
  rw [h] at this
  simp at this

theorem dchar_ne_dash (k : Nat) : dchar k ≠ '-' := by
  unfold dchar
  split <;> decide

theorem pad2_no_dash (m : Nat) (hm : m < 100) : ∀ c ∈ pad2 m, c ≠ '-' := by
  intro c hc
  have := pad2_digits m hm c hc
  intro h
  rw [h] at this
  exact absurd this (by decide)

theorem pad4_no_dash (y : Nat) (hy : y < 10000) : ∀ c ∈ pad4 y, c ≠ '-' := by
  intro c hc
  have := pad4_digits y hy c hc
  intro h
  rw [h] at this
  exact absurd this (by decide)

/-! ### Splitting a rendered date on dashes -/

theorem sepSplitAux_no_sep (sep : Char) (l : List Char) (h : ∀ c ∈ l, c ≠ sep) :
    ∀ acc, sepSplitAux sep l acc = [acc.reverse ++ l] := by
  induction l with
  | nil =>
    intro acc
    show [acc.reverse] = [acc.reverse ++ []]
    rw [List.append_nil]
  | cons c t ih =>
    intro acc
    show (if c = sep then _ else _) = _
    rw [if_neg (h c (by simp))]
    rw [ih (fun x hx => h x (by simp [hx])) (c :: acc)]
    simp

theorem sepSplitAux_break (sep : Char) (l1 rest : List Char)
    (h : ∀ c ∈ l1, c ≠ sep) : ∀ acc,
    sepSplitAux sep (l1 ++ sep :: rest) acc
      = (acc.reverse ++ l1) :: sepSplitAux sep rest [] := by
  induction l1 with
  | nil =>
    intro acc
    show (if sep = sep then _ else _) = _
    rw [if_pos rfl]
    simp
  | cons c t ih =>
    intro acc
    show (if c = sep then _ else _) = _
    rw [if_neg (h c (by simp))]
    rw [show (t.append (sep :: rest)) = t ++ sep :: rest from rfl]
    rw [ih (fun x hx => h x (by simp [hx])) (c :: acc)]
    simp

theorem sepSplit_mkIso (y m d : Nat) (hy : y < 10000) (hm : m < 100) (hd : d < 100) :
    sepSplit '-' (mkIsoL y m d) = [pad4 y, pad2 m, pad2 d] := by
  unfold sepSplit mkIsoL
  rw [sepSplitAux_break '-' (pad4 y) _ (pad4_no_dash y hy) []]
  rw [sepSplitAux_break '-' (pad2 m) _ (pad2_no_dash m hm) []]
  rw [sepSplitAux_no_sep '-' (pad2 d) (pad2_no_dash d hd) []]
  simp

/-! ### Bucket-label evaluation on rendered dates -/

theorem pad4_chars (y : Nat) (hy : y < 10000) :
    pad4 y = [dchar (y / 1000), dchar (y / 100 % 10), dchar (y / 10 % 10),
      dchar (y % 10)] := by
  rw [pad4_decomp y hy, pad2_eq (y / 100) (by omega), pad2_eq (y % 100) (by omega)]
  have e1 : y / 100 / 10 = y / 1000 := by omega
  have e2 : y % 100 / 10 = y / 10 % 10 := by omega
  have e3 : y % 100 % 10 = y % 10 := by omega
  rw [e1, e2, e3]
  rfl

theorem monthKey_mkIso (y m d : Nat) (hy : y < 10000) (hm : m < 100) (hd : d < 100) :
    monthKey (mkIso y m d) = ⟨pad4 y ++ '-' :: pad2 m⟩ := by
  unfold monthKey mkIso
  show String.mk ((mkIsoL y m d).take 7) = _
  rw [mkIsoL_chars y m d hy hm hd]
  rw [pad4_chars y hy, pad2_eq m hm]
  rfl

/-- The odd start month of a two-month pair. -/
def bstart (m : Nat) : Nat := if m % 2 = 0 then m - 1 else m

theorem intDigits_coe (n : Nat) : intDigits (n : Int) = natDigits n := by
  unfold intDigits
  rw [if_neg (by omega)]
  rw [Int.natAbs_ofNat]

theorem pad2I_coe (n : Nat) : pad2I (n : Int) = pad2 n := by
  unfold pad2I pad2
  rw [intDigits_coe]

theorem twoMonthKey_mkIso (y m d : Nat) (hy : y < 10000) (hm1 : 1 ≤ m)
    (hm : m ≤ 12) (hd : d < 100) :
    twoMonthKey (mkIso y m d)
      = ⟨natDigits y ++ '-' :: (pad2 (bstart m) ++ '.' :: '.' ::
          (natDigits y ++ '-' :: pad2 (bstart m + 1)))⟩ := by
  unfold twoMonthKey mkIso
  rw [show (String.mk (mkIsoL y m d)).data = mkIsoL y m d from rfl]
  rw [sepSplit_mkIso y m d hy (by omega) hd]
  simp only [List.getD_cons_zero, List.getD_cons_succ]
  rw [jsNatPart_digits (pad4 y) (pad4_ne_nil y hy) (pad4_digits y hy),
      jsNatPart_digits (pad2 m) (pad2_ne_nil m (by omega)) (pad2_digits m (by omega))]
  rw [digitsVal_pad4 y hy, digitsVal_pad2 m (by omega)]
  show String.mk (natDigits y ++ '-' ::
      (pad2I (if m % 2 = 0 then (m : Int) - 1 else (m : Int)) ++ '.' :: '.' ::
        (natDigits y ++ '-' ::
          pad2I ((if m % 2 = 0 then (m : Int) - 1 else (m : Int)) + 1)))) = _
  by_cases hpar : m % 2 = 0
  · rw [if_pos hpar]
    rw [show ((m : Int) - 1) = ((m - 1 : Nat) : Int) by omega]
    rw [show (((m - 1 : Nat) : Int) + 1) = ((m - 1 + 1 : Nat) : Int) by omega]
    rw [pad2I_coe, pad2I_coe]
    rw [show bstart m = m - 1 by unfold bstart; rw [if_pos hpar]]
  · rw [if_neg hpar]
    rw [show ((m : Int) + 1) = ((m + 1 : Nat) : Int) by omega]
    rw [pad2I_coe, pad2I_coe]
    rw [show bstart m = m by unfold bstart; rw [if_neg hpar]]

/-- The quarter number of a month. -/
def qOf (m : Nat) : Nat := (m - 1) / 3 + 1

theorem quarterKey_mkIso (y m d : Nat) (hy : y < 10000) (hm1 : 1 ≤ m)
    (hm : m ≤ 12) (hd : d < 100) :
    quarterKey (mkIso y m d) = ⟨natDigits y ++ ' ' :: 'Q' :: natDigits (qOf m)⟩ := by
  unfold quarterKey mkIso
  rw [show (String.mk (mkIsoL y m d)).data = mkIsoL y m d from rfl]
  rw [sepSplit_mkIso y m d hy (by omega) hd]
  simp only [List.getD_cons_zero, List.getD_cons_succ]
  rw [jsNatPart_digits (pad4 y) (pad4_ne_nil y hy) (pad4_digits y hy),
      jsNatPart_digits (pad2 m) (pad2_ne_nil m (by omega)) (pad2_digits m (by omega))]
  rw [digitsVal_pad4 y hy, digitsVal_pad2 m (by omega)]
  show String.mk (natDigits y ++ ' ' :: 'Q' ::
      intDigits (((m : Int) - 1).fdiv 3 + 1)) = _
  rw [show ((m : Int) - 1) = ((m - 1 : Nat) : Int) by omega]
  rw [show (((m - 1 : Nat) : Int)).fdiv 3 = (((m - 1) / 3 : Nat) : Int) from
    (Int.ofNat_fdiv (m - 1) 3).symm]
  rw [show ((((m - 1) / 3 : Nat) : Int) + 1) = (((m - 1) / 3 + 1 : Nat) : Int) by omega]
  rw [intDigits_coe]
  rfl

/-! ### Monotonicity of bucket labels (C8) -/

theorem lexLe_single (c1 c2 : Char) :
    lexLe [c1] [c2] = true ↔ c1.toNat ≤ c2.toNat := by
  show (if c1.toNat < c2.toNat then true
        else if c1.toNat = c2.toNat then lexLe [] [] else false) = true ↔ _
  rcases Nat.lt_trichotomy c1.toNat c2.toNat with h | h | h
  · rw [if_pos h]
    simp
    omega
  · rw [if_neg (by omega), if_pos h]
    simp [lexLe]
    omega
  · rw [if_neg (by omega), if_neg (by omega)]
    simp
    omega

theorem dchar_le_iff : ∀ a < 10, ∀ b < 10,
    ((dchar a).toNat ≤ (dchar b).toNat ↔ a ≤ b) := by decide

theorem bstart_le (m : Nat) : bstart m ≤ m := by
  unfold bstart
  split <;> omega

theorem bstart_mono {m1 m2 : Nat} (h : m1 ≤ m2) : bstart m1 ≤ bstart m2 := by
  unfold bstart
  split <;> split <;> omega

theorem qOf_mono {m1 m2 : Nat} (h : m1 ≤ m2) : qOf m1 ≤ qOf m2 := by
  unfold qOf
  omega

theorem monthKey_mono {y1 m1 d1 y2 m2 d2 : Nat}
    (h1 : validYMD y1 m1 d1) (h2 : validYMD y2 m2 d2)
    (hle : tripleLe (y1, m1, d1) (y2, m2, d2)) :
    strLe (monthKey (mkIso y1 m1 d1)) (monthKey (mkIso y2 m2 d2)) = true := by
  obtain ⟨ha1, ha2, ha3, ha4, ha5⟩ := h1
  obtain ⟨hb1, hb2, hb3, hb4, hb5⟩ := h2
  have hda := dimM_le (isLeap y1) m1
  have hdb := dimM_le (isLeap y2) m2
  rw [monthKey_mkIso y1 m1 d1 (by omega) (by omega) (by omega),
      monthKey_mkIso y2 m2 d2 (by omega) (by omega) (by omega)]
  show lexLe (pad4 y1 ++ '-' :: pad2 m1) (pad4 y2 ++ '-' :: pad2 m2) = true
  rw [lexLe_append_eqlen (by rw [pad4_len y1 (by omega), pad4_len y2 (by omega)])]
  unfold tripleLe at hle
  rcases hle with hy | ⟨rfl, hm | ⟨rfl, hd⟩⟩
  · exact Or.inl ((pad4_lt_iff y1 y2 (by omega) (by omega)).mpr hy)
  · refine Or.inr ⟨rfl, ?_⟩
    rw [lexLe_cons_same]
    exact (pad2_le_iff m1 (by omega) m2 (by omega)).mpr (by omega)
  · exact Or.inr ⟨rfl, lexLe_refl _⟩

theorem twoMonthKey_mono {y1 m1 d1 y2 m2 d2 : Nat}
    (h1 : validYMD y1 m1 d1) (h2 : validYMD y2 m2 d2)
    (hy1 : 1000 ≤ y1) (hy2 : 1000 ≤ y2)
    (hle : tripleLe (y1, m1, d1) (y2, m2, d2)) :
    strLe (twoMonthKey (mkIso y1 m1 d1)) (twoMonthKey (mkIso y2 m2 d2)) = true := by
  obtain ⟨ha1, ha2, ha3, ha4, ha5⟩ := h1
  obtain ⟨hb1, hb2, hb3, hb4, hb5⟩ := h2
  have hda := dimM_le (isLeap y1) m1
  have hdb := dimM_le (isLeap y2) m2
  have hs1 := bstart_le m1
  have hs2 := bstart_le m2
  rw [twoMonthKey_mkIso y1 m1 d1 (by omega) ha2 ha3 (by omega),
      twoMonthKey_mkIso y2 m2 d2 (by omega) hb2 hb3 (by omega)]
  show lexLe
      (natDigits y1 ++ '-' :: (pad2 (bstart m1) ++ '.' :: '.' ::
        (natDigits y1 ++ '-' :: pad2 (bstart m1 + 1))))
      (natDigits y2 ++ '-' :: (pad2 (bstart m2) ++ '.' :: '.' ::
        (natDigits y2 ++ '-' :: pad2 (bstart m2 + 1)))) = true
  rw [natDigits_eq_pad4 hy1 (by omega), natDigits_eq_pad4 hy2 (by omega)]
  rw [lexLe_append_eqlen (by rw [pad4_len y1 (by omega), pad4_len y2 (by omega)])]
  unfold tripleLe at hle
  rcases hle with hy | ⟨rfl, hm | ⟨rfl, hd⟩⟩
  · exact Or.inl ((pad4_lt_iff y1 y2 (by omega) (by omega)).mpr hy)
  · refine Or.inr ⟨rfl, ?_⟩
    rw [lexLe_cons_same]
    rw [lexLe_append_eqlen
      (by rw [pad2_len (bstart m1) (by omega), pad2_len (bstart m2) (by omega)])]
    have hbm := bstart_mono (Nat.le_of_lt hm)
    rcases Nat.lt_or_ge (bstart m1) (bstart m2) with hlt | hge
    · exact Or.inl ((pad2_lt_iff (bstart m1) (by omega) (bstart m2) (by omega)).mpr hlt)
    · have heq : bstart m1 = bstart m2 := by omega
      rw [heq]
      exact Or.inr ⟨rfl, lexLe_refl _⟩
  · exact Or.inr ⟨rfl, lexLe_refl _⟩

theorem quarterKey_mono {y1 m1 d1 y2 m2 d2 : Nat}
    (h1 : validYMD y1 m1 d1) (h2 : validYMD y2 m2 d2)
    (hy1 : 1000 ≤ y1) (hy2 : 1000 ≤ y2)
    (hle : tripleLe (y1, m1, d1) (y2, m2, d2)) :
    strLe (quarterKey (mkIso y1 m1 d1)) (quarterKey (mkIso y2 m2 d2)) = true := by
  obtain ⟨ha1, ha2, ha3, ha4, ha5⟩ := h1
  obtain ⟨hb1, hb2, hb3, hb4, hb5⟩ := h2
  have hda := dimM_le (isLeap y1) m1
  have hdb := dimM_le (isLeap y2) m2
  have hq1 : qOf m1 < 10 := by unfold qOf; omega
  have hq2 : qOf m2 < 10 := by unfold qOf; omega
  rw [quarterKey_mkIso y1 m1 d1 (by omega) ha2 ha3 (by omega),
      quarterKey_mkIso y2 m2 d2 (by omega) hb2 hb3 (by omega)]
  show lexLe (natDigits y1 ++ ' ' :: 'Q' :: natDigits (qOf m1))
      (natDigits y2 ++ ' ' :: 'Q' :: natDigits (qOf m2)) = true
  rw [natDigits_eq_pad4 hy1 (by omega), natDigits_eq_pad4 hy2 (by omega),
      natDigits_small hq1, natDigits_small hq2]
  rw [lexLe_append_eqlen (by rw [pad4_len y1 (by omega), pad4_len y2 (by omega)])]
  unfold tripleLe at hle
  rcases hle with hy | ⟨rfl, hm | ⟨rfl, hd⟩⟩
  · exact Or.inl ((pad4_lt_iff y1 y2 (by omega) (by omega)).mpr hy)
  · refine Or.inr ⟨rfl, ?_⟩
    rw [lexLe_cons_same, lexLe_cons_same, lexLe_single]
    exact (dchar_le_iff (qOf m1) hq1 (qOf m2) hq2).mpr (qOf_mono (Nat.le_of_lt hm))
  · exact Or.inr ⟨rfl, lexLe_refl _⟩

theorem bucketsOf_sorted (rows : List ParsedRow) (mode : BucketMode) :
    (bucketsOf rows mode).Pairwise (fun a b => bucketLeB a b = true) := by
  unfold bucketsOf
  exact pairwise_sortB bucketLeB _
    (fun x y => lexLe_total x.label.data y.label.data)
    (fun x y z h1 h2 => lexLe_trans h1 h2)

/-- C8 counterexample: bi-monthly (and quarterly) labels render the year
without zero padding, so for years below 1000 lexicographic label order
disagrees with chronological order: `0031-05-01` precedes `0300-05-01`
chronologically, but its bi-monthly label `"31-05..31-06"` sorts after
`"300-05..300-06"`. -/
theorem claim_C8_counterexample :
    validYMD 31 5 1 ∧ validYMD 300 5 1 ∧ tripleLe (31, 5, 1) (300, 5, 1) ∧
    strLe (twoMonthKey (mkIso 31 5 1)) (twoMonthKey (mkIso 300 5 1)) = false := by
  refine ⟨by decide, by decide, by decide, by decide⟩

/-- C8 (amended): for the monthly mode, the bucket label of the earlier of
two valid normalized value dates is lexicographically less than or equal to
the label of the later one; for the bi-monthly and quarterly modes (which
render the year without zero padding) the same holds whenever both years are
at least 1000; and the bucket list computed by recompute is sorted ascending
by label for every raw set and filter state. -/
theorem claim_C8_bucket_label_order :
    (∀ y1 m1 d1 y2 m2 d2, validYMD y1 m1 d1 → validYMD y2 m2 d2 →
      tripleLe (y1, m1, d1) (y2, m2, d2) →
      strLe (monthKey (mkIso y1 m1 d1)) (monthKey (mkIso y2 m2 d2)) = true) ∧
    (∀ y1 m1 d1 y2 m2 d2, validYMD y1 m1 d1 → validYMD y2 m2 d2 →
      1000 ≤ y1 → 1000 ≤ y2 → tripleLe (y1, m1, d1) (y2, m2, d2) →
      strLe (twoMonthKey (mkIso y1 m1 d1)) (twoMonthKey (mkIso y2 m2 d2)) = true ∧
      strLe (quarterKey (mkIso y1 m1 d1)) (quarterKey (mkIso y2 m2 d2)) = true) ∧
    (∀ raw f, ((recomputeD raw f).buckets).Pairwise
      (fun a b => bucketLeB a b = true)) := by
  refine ⟨?_, ?_, ?_⟩
  · intro y1 m1 d1 y2 m2 d2 h1 h2 hle
    exact monthKey_mono h1 h2 hle
  · intro y1 m1 d1 y2 m2 d2 h1 h2 hy1 hy2 hle
    exact ⟨twoMonthKey_mono h1 h2 hy1 hy2 hle, quarterKey_mono h1 h2 hy1 hy2 hle⟩
  · intro raw f
    exact bucketsOf_sorted _ _

/-- C8 witness: the amended label-order property at two concrete valid dates
of the same four-digit year, and sortedness of the bucket list of a concrete
recompute. -/
theorem claim_C8_witness :
    strLe (monthKey (mkIso 2025 3 5)) (monthKey (mkIso 2025 11 1)) = true ∧
    strLe (twoMonthKey (mkIso 2025 3 5)) (twoMonthKey (mkIso 2025 11 1)) = true ∧
    strLe (quarterKey (mkIso 2025 3 5)) (quarterKey (mkIso 2025 11 1)) = true ∧
    ((recomputeD [rowC1] defaultFilters).buckets).Pairwise
      (fun a b => bucketLeB a b = true) :=
  ⟨claim_C8_bucket_label_order.1 2025 3 5 2025 11 1 (by decide) (by decide)
     (by decide),
   (claim_C8_bucket_label_order.2.1 2025 3 5 2025 11 1 (by decide) (by decide)
     (by omega) (by omega) (by decide)).1,
   (claim_C8_bucket_label_order.2.1 2025 3 5 2025 11 1 (by decide) (by decide)
     (by omega) (by omega) (by decide)).2,
   claim_C8_bucket_label_order.2.2 [rowC1] defaultFilters⟩

/-! ### Range presets and the resolved window (C4) -/

/-- The trailing-window length of each preset (the offsets `-29`, `-59`,
`-89`, `-179` of `resolveRange` are `-(N-1)`); `none` for `all` and
`custom`. -/
def presetDays : RangePreset → Option Nat
  | .last30 => some 30
  | .last60 => some 60
  | .last90 => some 90
  | .last180 => some 180
  | .all => none
  | .custom => none

/-- A normalized date string that parses to a valid calendar date of a
positive year (JS `new Date(iso)` accepts exactly these without rollover). -/
def validIsoStr (s : String) : Prop :=
  match isoTripleOf s with
  | some (y, m, d) => validYMD y m d ∧ 1 ≤ y
  | none => False

instance instDecValidIsoStr (s : String) : Decidable (validIsoStr s) := by
  unfold validIsoStr
  cases h : isoTripleOf s with
  | none => exact isFalse (fun hf => hf)
  | some t =>
    rcases t with ⟨y, m, d⟩
    exact inferInstanceAs (Decidable (validYMD y m d ∧ 1 ≤ y))

/-- Every parseable transaction date of the raw set is a valid calendar
date with a positive year. -/
def validTxnRaw (raw : List ParsedRow) : Prop :=
  ∀ s ∈ txnIsos raw, validIsoStr s

instance instDecValidTxnRaw (raw : List ParsedRow) :
    Decidable (validTxnRaw raw) := by
  unfold validTxnRaw
  infer_instance

theorem txnIsos_ne_nil {raw : List ParsedRow} (h : anyISO raw = true) :
    txnIsos raw ≠ [] := by
  unfold anyISO at h
  rw [List.any_eq_true] at h
  obtain ⟨r, hr, hs⟩ := h
  rcases hopt : toISO r.TXN_DATE with - | s
  · rw [hopt] at hs
    simp at hs
  · intro hnil
    have hmem : s ∈ txnIsos raw := by
      unfold txnIsos
      exact List.mem_filterMap.mpr ⟨r, hr, hopt⟩
    rw [hnil] at hmem
    simp at hmem

/-- Under validity, the dataset anchor `endOfDataISO` is the rendering of a
valid triple that bounds every parseable transaction date from above. -/
theorem endOfData_anchor {raw : List ParsedRow} (hany : anyISO raw = true)
    (hval : validTxnRaw raw) :
    ∃ ty tm td, endOfDataISO raw = some (mkIso ty tm td) ∧
      validYMD ty tm td ∧ 1 ≤ ty ∧ mkIso ty tm td ∈ txnIsos raw ∧
      ∀ s ∈ txnIsos raw, strLe s (mkIso ty tm td) = true := by
  have hne := txnIsos_ne_nil hany
  have hsne : sortB strLeB (txnIsos raw) ≠ [] := by
    intro h0
    rcases List.exists_mem_of_ne_nil _ hne with ⟨x, hx⟩
    have hxs := (mem_sortB strLeB x (txnIsos raw)).mpr hx
    rw [h0] at hxs
    simp at hxs
  have hmemS : (sortB strLeB (txnIsos raw)).getLastD "" ∈
      sortB strLeB (txnIsos raw) := getLastD_mem _ _ hsne
  have hmem : (sortB strLeB (txnIsos raw)).getLastD "" ∈ txnIsos raw :=
    (mem_sortB _ _ _).mp hmemS
  have hvL := hval _ hmem
  unfold validIsoStr at hvL
  rcases htr : isoTripleOf ((sortB strLeB (txnIsos raw)).getLastD "")
    with - | ⟨y, m, d⟩
  · rw [htr] at hvL
    exact hvL.elim
  · rw [htr] at hvL
    obtain ⟨hYMD, hy1⟩ := hvL
    obtain ⟨hLeq, -, -, -⟩ := mkIso_isoTripleOf htr
    have hEnd : endOfDataISO raw = some (mkIso y m d) := by
      unfold endOfDataISO
      show (if txnIsos raw = [] then none
            else some ((sortB strLeB (txnIsos raw)).getLastD "")) = _
      rw [if_neg hne, ← hLeq]
    have hsorted := pairwise_sortB strLeB (txnIsos raw)
      (fun x y => lexLe_total x.data y.data)
      (fun x y z h1 h2 => lexLe_trans h1 h2)
    refine ⟨y, m, d, hEnd, hYMD, hy1, ?_, ?_⟩
    · rw [← hLeq]
      exact hmem
    intro s hs
    have hsS := (mem_sortB strLeB s _).mpr hs
    have hR := pairwise_getLastD _ "" (fun a b => strLeB a b = true)
      (fun x => lexLe_refl x.data) hsorted s hsS
    rw [← hLeq]
    exact hR

/-- On a rendered valid date with a small non-positive offset,
`dateAddDays` lands on the valid date exactly `δ` days away. -/
theorem dateAddDays_valid {y m d : Nat} (h : validYMD y m d) (hy1 : 1 ≤ y)
    (δ : Int) (hδ : -365 ≤ δ) (hδ2 : δ ≤ 0) :
    ∃ fy fm fd, dateAddDays (mkIso y m d) δ = mkIso fy fm fd ∧
      validYMD fy fm fd ∧
      (toRD fy fm fd : Int) = (toRD y m d : Int) + δ := by
  obtain ⟨h1, h2, h3, h4, h5⟩ := h
  have hda := dimM_le (isLeap y) m
  have htri := isoTripleOf_mkIso y m d (by omega) (by omega) (by omega)
  have hlow : 366 ≤ toRD y m d := by
    have hm1 : dby 1 ≤ dby y := dby_mono hy1
    have h366 : dby 1 = 366 := by decide
    unfold toRD
    omega
  have hupper : toRD y m d < 3652425 := by
    have hlt := toRD_lt_next_year y m d ⟨h1, h2, h3, h4, h5⟩
    have hm2 : dby (y + 1) ≤ dby 10000 := dby_mono (by omega)
    rw [dby_10000] at hm2
    omega
  have hnlt : ((toRD y m d : Int) + δ).toNat < 3652425 := by omega
  obtain ⟨hvf, hrd⟩ := fromRD_correct (((toRD y m d : Int) + δ).toNat) hnlt
  refine ⟨_, _, _, ?_, hvf, ?_⟩
  · unfold dateAddDays
    rw [htri]
    show (if validYMD y m d then
        mkIso (fromRD (((toRD y m d : Int) + δ).toNat)).1
          (fromRD (((toRD y m d : Int) + δ).toNat)).2.1
          (fromRD (((toRD y m d : Int) + δ).toNat)).2.2 else "") = _
    rw [if_pos (show validYMD y m d from ⟨h1, h2, h3, h4, h5⟩)]
  · rw [hrd]
    omega

theorem resolveRange_last30 (raw : List ParsedRow) (f : AnalysisFilters)
    (hp : f.preset = .last30) :
    resolveRange raw f = ((endOfDataISO raw).map (fun s => dateAddDays s (-29)),
      endOfDataISO raw) := by
  unfold resolveRange
  rw [hp]

theorem resolveRange_last60 (raw : List ParsedRow) (f : AnalysisFilters)
    (hp : f.preset = .last60) :
    resolveRange raw f = ((endOfDataISO raw).map (fun s => dateAddDays s (-59)),
      endOfDataISO raw) := by
  unfold resolveRange
  rw [hp]

theorem resolveRange_last90 (raw : List ParsedRow) (f : AnalysisFilters)
    (hp : f.preset = .last90) :
    resolveRange raw f = ((endOfDataISO raw).map (fun s => dateAddDays s (-89)),
      endOfDataISO raw) := by
  unfold resolveRange
  rw [hp]

theorem resolveRange_last180 (raw : List ParsedRow) (f : AnalysisFilters)
    (hp : f.preset = .last180) :
    resolveRange raw f = ((endOfDataISO raw).map (fun s => dateAddDays s (-179)),
      endOfDataISO raw) := by
  unfold resolveRange
  rw [hp]

/-- Shared shape of the four trailing-window cases. -/
theorem resolveRange_window_core {raw : List ParsedRow} {ty tm td : Nat}
    (hEnd : endOfDataISO raw = some (mkIso ty tm td)) (hYMD : validYMD ty tm td)
    (hy1 : 1 ≤ ty) (δ : Int) (hδ : -365 ≤ δ) (hδ2 : δ ≤ 0) :
    ∃ fy fm fd,
      ((endOfDataISO raw).map (fun s => dateAddDays s δ), endOfDataISO raw)
        = (some (mkIso fy fm fd), some (mkIso ty tm td)) ∧
      validYMD fy fm fd ∧
      (toRD fy fm fd : Int) = (toRD ty tm td : Int) + δ := by
  obtain ⟨fy, fm, fd, hEq, hvf, hrd⟩ := dateAddDays_valid hYMD hy1 δ hδ hδ2
  refine ⟨fy, fm, fd, ?_, hvf, hrd⟩
  rw [hEnd]
  rw [show (some (mkIso ty tm td)).map (fun s => dateAddDays s δ)
      = some (dateAddDays (mkIso ty tm td) δ) from rfl]
  rw [hEq]

/-- For each trailing preset, the resolved window ends at the dataset
anchor and starts exactly `N - 1` days earlier. -/
theorem resolveRange_window {raw : List ParsedRow} {f : AnalysisFilters}
    {N : Nat} (hN : presetDays f.preset = some N)
    (hany : anyISO raw = true) (hval : validTxnRaw raw) :
    (N = 30 ∨ N = 60 ∨ N = 90 ∨ N = 180) ∧
    ∃ ty tm td fy fm fd,
      endOfDataISO raw = some (mkIso ty tm td) ∧ validYMD ty tm td ∧
      resolveRange raw f = (some (mkIso fy fm fd), some (mkIso ty tm td)) ∧
      validYMD fy fm fd ∧
      (toRD fy fm fd : Int) = (toRD ty tm td : Int) - ((N : Int) - 1) := by
  obtain ⟨ty, tm, td, hEnd, hYMD, hy1, -, -⟩ := endOfData_anchor hany hval
  cases hp : f.preset with
  | last30 =>
    rw [hp, show presetDays RangePreset.last30 = some 30 from rfl] at hN
    have hN' := Option.some.inj hN
    subst hN'
    obtain ⟨fy, fm, fd, hfst, hvf, hrd⟩ :=
      resolveRange_window_core hEnd hYMD hy1 (-29) (by omega) (by omega)
    refine ⟨by omega, ty, tm, td, fy, fm, fd, hEnd, hYMD, ?_, hvf, by omega⟩
    rw [resolveRange_last30 raw f hp]
    exact hfst
  | last60 =>
    rw [hp, show presetDays RangePreset.last60 = some 60 from rfl] at hN
    have hN' := Option.some.inj hN
    subst hN'
    obtain ⟨fy, fm, fd, hfst, hvf, hrd⟩ :=
      resolveRange_window_core hEnd hYMD hy1 (-59) (by omega) (by omega)
    refine ⟨by omega, ty, tm, td, fy, fm, fd, hEnd, hYMD, ?_, hvf, by omega⟩
    rw [resolveRange_last60 raw f hp]
    exact hfst
  | last90 =>
    rw [hp, show presetDays RangePreset.last90 = some 90 from rfl] at hN
    have hN' := Option.some.inj hN
    subst hN'
    obtain ⟨fy, fm, fd, hfst, hvf, hrd⟩ :=
      resolveRange_window_core hEnd hYMD hy1 (-89) (by omega) (by omega)
    refine ⟨by omega, ty, tm, td, fy, fm, fd, hEnd, hYMD, ?_, hvf, by omega⟩
    rw [resolveRange_last90 raw f hp]
    exact hfst
  | last180 =>
    rw [hp, show presetDays RangePreset.last180 = some 180 from rfl] at hN
    have hN' := Option.some.inj hN
    subst hN'
    obtain ⟨fy, fm, fd, hfst, hvf, hrd⟩ :=
      resolveRange_window_core hEnd hYMD hy1 (-179) (by omega) (by omega)
    refine ⟨by omega, ty, tm, td, fy, fm, fd, hEnd, hYMD, ?_, hvf, by omega⟩
    rw [resolveRange_last180 raw f hp]
    exact hfst
  | all =>
    rw [hp] at hN
    exact absurd hN (by simp [presetDays])
  | custom =>
    rw [hp] at hN
    exact absurd hN (by simp [presetDays])

/-- C4: the filter range preset ranges over exactly the six values
`last30`, `last60`, `last90`, `last180`, `all`, `custom`, and for each
trailing preset `lastN` applied to a raw set with at least one parseable
(and valid) transaction date, the resolved window is `to` = the dataset's
maximum transaction date and `from` = `to` minus `N - 1` days. -/
theorem claim_C4_range_presets :
    (∀ p : RangePreset, p = .last30 ∨ p = .last60 ∨ p = .last90 ∨
      p = .last180 ∨ p = .all ∨ p = .custom) ∧
    (∀ (raw : List ParsedRow) (f : AnalysisFilters) (N : Nat),
      presetDays f.preset = some N → anyISO raw = true → validTxnRaw raw →
      (N = 30 ∨ N = 60 ∨ N = 90 ∨ N = 180) ∧
      ∃ ty tm td fy fm fd,
        endOfDataISO raw = some (mkIso ty tm td) ∧ validYMD ty tm td ∧
        resolveRange raw f = (some (mkIso fy fm fd), some (mkIso ty tm td)) ∧
        validYMD fy fm fd ∧
        (toRD fy fm fd : Int) = (toRD ty tm td : Int) - ((N : Int) - 1)) := by
  refine ⟨?_, ?_⟩
  · intro p
    cases p with
    | last30 => exact Or.inl rfl
    | last60 => exact Or.inr (Or.inl rfl)
    | last90 => exact Or.inr (Or.inr (Or.inl rfl))
    | last180 => exact Or.inr (Or.inr (Or.inr (Or.inl rfl)))
    | all => exact Or.inr (Or.inr (Or.inr (Or.inr (Or.inl rfl))))
    | custom => exact Or.inr (Or.inr (Or.inr (Or.inr (Or.inr rfl))))
  · intro raw f N hN hany hval
    exact resolveRange_window hN hany hval

def filtersC4 : AnalysisFilters := { defaultFilters with preset := .last30 }

/-- C4 witness: the trailing-window property at a concrete one-row raw set
under the `last30` preset. -/
theorem claim_C4_witness :
    presetDays filtersC4.preset = some 30 ∧ anyISO [rowC1] = true ∧
    validTxnRaw [rowC1] ∧
    ((30 = 30 ∨ 30 = 60 ∨ 30 = 90 ∨ 30 = 180) ∧
     ∃ ty tm td fy fm fd,
       endOfDataISO [rowC1] = some (mkIso ty tm td) ∧ validYMD ty tm td ∧
       resolveRange [rowC1] filtersC4
         = (some (mkIso fy fm fd), some (mkIso ty tm td)) ∧
       validYMD fy fm fd ∧
       (toRD fy fm fd : Int) = (toRD ty tm td : Int) - (((30 : Nat) : Int) - 1)) :=
  ⟨by decide, by decide, by decide,
   claim_C4_range_presets.2 [rowC1] filtersC4 30 (by decide) (by decide)
     (by decide)⟩

/-! ### Spec-modelled rolling-credit aggregator (C3)

These definitions follow the specification text — day-number windows over
the raw set, anchored to the maximum normalized transaction date — and are
compared with the store's string-comparison implementation `rollingOf`. -/

def valIsos (raw : List ParsedRow) : List String :=
  raw.filterMap (fun r => toISO r.VAL_DATE)

/-- Every parseable value date of the raw set is a valid calendar date
with a positive year. -/
def validValRaw (raw : List ParsedRow) : Prop :=
  ∀ s ∈ valIsos raw, validIsoStr s

instance instDecValidValRaw (raw : List ParsedRow) :
    Decidable (validValRaw raw) := by
  unfold validValRaw
  infer_instance

/-- Spec: the anchor is the maximum (as a day number) of the normalized
transaction dates. -/
def specAnchorRD (raw : List ParsedRow) : Nat :=
  ((txnIsos raw).filterMap (fun s =>
    match isoTripleOf s with
    | some (y, m, d) => some (toRD y m d)
    | none => none)).foldl max 0

/-- Spec: row membership in the trailing `w`-day window, by day numbers. -/
def specInWindow (anchorRD w : Nat) (r : ParsedRow) : Bool :=
  match toISO r.VAL_DATE with
  | some iso =>
    match isoTripleOf iso with
    | some (y, m, d) =>
      decide ((anchorRD : Int) - ((w : Int) - 1) ≤ (toRD y m d : Int) ∧
        (toRD y m d : Int) ≤ (anchorRD : Int))
    | none => false
  | none => false

/-- Spec: the credit sum of the rows inside the window. -/
def specWindowTotal (raw : List ParsedRow) (anchorRD w : Nat) : Frac :=
  raw.foldl (fun sum r =>
    if specInWindow anchorRD w r then sum.add (parseMoneyQ r.CREDIT) else sum)
    Frac.zero

/-- Spec: totals for the 30, 90 and 180 day windows, `avg30 = total30 / 1`,
`avg90 = total90 / 3`, `avg180 = total180 / 6`, and the combined average as
the arithmetic mean of the three averages. -/
def specRolling (raw : List ParsedRow) : RollingCredit :=
  let a := specAnchorRD raw
  let total30 := specWindowTotal raw a 30
  let total90 := specWindowTotal raw a 90
  let total180 := specWindowTotal raw a 180
  let avg30 := total30.div ⟨1, 1⟩
  let avg90 := total90.div ⟨3, 1⟩
  let avg180 := total180.div ⟨6, 1⟩
  ⟨total30, total90, total180, avg30, avg90, avg180,
    ((avg30.add avg90).add avg180).div ⟨3, 1⟩⟩

theorem foldl_max_le_of (acc B : Nat) (l : List Nat) (hacc : acc ≤ B)
    (h : ∀ x ∈ l, x ≤ B) : l.foldl max acc ≤ B := by
  induction l generalizing acc with
  | nil => exact hacc
  | cons a t ih =>
    exact ih (max acc a) (by have := h a (by simp); omega)
      (fun x hx => h x (by simp [hx]))

theorem le_foldl_max_acc (acc : Nat) (l : List Nat) : acc ≤ l.foldl max acc := by
  induction l generalizing acc with
  | nil => exact Nat.le_refl acc
  | cons a t ih => exact Nat.le_trans (Nat.le_max_left acc a) (ih (max acc a))

theorem le_foldl_max_mem (x : Nat) (l : List Nat) :
    ∀ acc, x ∈ l → x ≤ l.foldl max acc := by
  induction l with
  | nil =>
    intro acc hx
    simp at hx
  | cons a t ih =>
    intro acc hx
    rcases List.mem_cons.mp hx with rfl | hx
    · exact Nat.le_trans (Nat.le_max_right acc x) (le_foldl_max_acc (max acc x) t)
    · exact ih (max acc a) hx

/-- Under validity, the spec anchor day number is the day number of the
dataset anchor `endOfDataISO`. -/
theorem specAnchorRD_eq {raw : List ParsedRow} {ty tm td : Nat}
    (hTxn : validTxnRaw raw) (hYMD : validYMD ty tm td)
    (hmemT : mkIso ty tm td ∈ txnIsos raw)
    (hmax : ∀ s ∈ txnIsos raw, strLe s (mkIso ty tm td) = true) :
    specAnchorRD raw = toRD ty tm td := by
  obtain ⟨hb1, hb2, hb3, hb4, hb5⟩ := hYMD
  have hdb := dimM_le (isLeap ty) tm
  unfold specAnchorRD
  apply Nat.le_antisymm
  · apply foldl_max_le_of 0 _ _ (by omega)
    intro x hx
    obtain ⟨s, hsmem, hseq⟩ := List.mem_filterMap.mp hx
    have hvs := hTxn s hsmem
    unfold validIsoStr at hvs
    rcases htr : isoTripleOf s with - | ⟨vy, vm, vd⟩
    · rw [htr] at hvs
      exact hvs.elim
    · rw [htr] at hseq hvs
      obtain ⟨hvYMD, -⟩ := hvs
      have hx' : x = toRD vy vm vd := (Option.some.inj hseq).symm
      obtain ⟨hsq, -, -, -⟩ := mkIso_isoTripleOf htr
      have hle := hmax s hsmem
      rw [hsq] at hle
      rw [mkIso_le_iff_toRD hvYMD ⟨hb1, hb2, hb3, hb4, hb5⟩] at hle
      omega
  · apply le_foldl_max_mem _ _ 0
    apply List.mem_filterMap.mpr
    refine ⟨mkIso ty tm td, hmemT, ?_⟩
    rw [isoTripleOf_mkIso ty tm td (by omega) (by omega) (by omega)]

theorem foldl_step_congr (g1 g2 : Frac → ParsedRow → Frac) (l : List ParsedRow)
    (h : ∀ r ∈ l, ∀ z, g1 z r = g2 z r) : ∀ z, l.foldl g1 z = l.foldl g2 z := by
  induction l with
  | nil =>
    intro z
    rfl
  | cons a t ih =>
    intro z
    show t.foldl g1 (g1 z a) = t.foldl g2 (g2 z a)
    rw [h a (by simp) z]
    exact ih (fun r hr z => h r (by simp [hr]) z) _

/-- Per row, the string-window test of `windowStep` agrees with the
day-number window of the spec. -/
theorem windowStep_eq_spec {r : ParsedRow}
    (hv : ∀ s, toISO r.VAL_DATE = some s → validIsoStr s)
    {ty tm td fy fm fd : Nat} (hYMD : validYMD ty tm td)
    (hvf : validYMD fy fm fd) (w : Nat)
    (hrd : (toRD fy fm fd : Int) = (toRD ty tm td : Int) - ((w : Int) - 1))
    (sum : Frac) :
    windowStep (mkIso fy fm fd) (mkIso ty tm td) sum r
      = (if specInWindow (toRD ty tm td) w r
          then sum.add (parseMoneyQ r.CREDIT) else sum) := by
  unfold windowStep specInWindow
  cases hiso : toISO r.VAL_DATE with
  | none => rfl
  | some iso =>
    have hvs := hv iso hiso
    unfold validIsoStr at hvs
    rcases htr : isoTripleOf iso with - | ⟨vy, vm, vd⟩
    · rw [htr] at hvs
      exact hvs.elim
    · rw [htr] at hvs
      obtain ⟨hvYMD, -⟩ := hvs
      obtain ⟨hsq, hv1, hv2, hv3⟩ := mkIso_isoTripleOf htr
      rw [hsq]
      dsimp only
      rw [isoTripleOf_mkIso vy vm vd hv1 hv2 hv3]
      dsimp only
      have hcond : (strLe (mkIso fy fm fd) (mkIso vy vm vd) &&
            strLe (mkIso vy vm vd) (mkIso ty tm td))
          = decide (((toRD ty tm td : Nat) : Int) - ((w : Int) - 1)
              ≤ (toRD vy vm vd : Int) ∧
            (toRD vy vm vd : Int) ≤ ((toRD ty tm td : Nat) : Int)) := by
        rw [Bool.eq_iff_iff, Bool.and_eq_true, decide_eq_true_eq]
        rw [mkIso_le_iff_toRD hvf hvYMD, mkIso_le_iff_toRD hvYMD hYMD]
        omega
      rw [hcond]

theorem creditInWindow_eq_spec (raw : List ParsedRow) (hVal : validValRaw raw)
    (ty tm td : Nat) (hYMD : validYMD ty tm td) (hy1 : 1 ≤ ty)
    (w : Nat) (hw1 : 1 ≤ w) (hw2 : w ≤ 366) :
    creditInWindow raw (some (mkIso ty tm td)) w
      = specWindowTotal raw (toRD ty tm td) w := by
  obtain ⟨fy, fm, fd, hF, hvf, hrd⟩ :=
    dateAddDays_valid hYMD hy1 (-((w : Int) - 1)) (by omega) (by omega)
  have hv : ∀ r ∈ raw, ∀ s, toISO r.VAL_DATE = some s → validIsoStr s := by
    intro r hr s hs
    exact hVal s (List.mem_filterMap.mpr ⟨r, hr, hs⟩)
  unfold creditInWindow specWindowTotal
  show raw.foldl (windowStep (dateAddDays (mkIso ty tm td) (-((w : Int) - 1)))
      (mkIso ty tm td)) Frac.zero = _
  rw [hF]
  exact foldl_step_congr _ _ raw
    (fun r hr z => windowStep_eq_spec (hv r hr) hYMD hvf w (by omega) z)
    Frac.zero

/-- The store's string-window rolling summary equals the spec's day-number
aggregator under validity of all parseable dates. -/
theorem rollingOf_eq_spec (raw : List ParsedRow) (hany : anyISO raw = true)
    (hTxn : validTxnRaw raw) (hVal : validValRaw raw) :
    rollingOf raw (endOfDataISO raw) = specRolling raw := by
  obtain ⟨ty, tm, td, hEnd, hYMD, hy1, hmemT, hmax⟩ := endOfData_anchor hany hTxn
  have hanchor := specAnchorRD_eq hTxn hYMD hmemT hmax
  rw [hEnd]
  unfold rollingOf specRolling
  rw [hanchor]
  rw [creditInWindow_eq_spec raw hVal ty tm td hYMD hy1 30 (by omega) (by omega),
      creditInWindow_eq_spec raw hVal ty tm td hYMD hy1 90 (by omega) (by omega),
      creditInWindow_eq_spec raw hVal ty tm td hYMD hy1 180 (by omega) (by omega)]

/-- C3: for a raw set with at least one parseable transaction date, all of
whose parseable transaction and value dates are valid calendar dates,
recompute's rolling-credit summary equals the spec's day-number aggregator:
anchored to the maximum normalized transaction date, each window total sums
the parsed credit of the raw rows whose normalized value date lies in the
inclusive range from anchor minus (N - 1) days to the anchor, with
avg30 = total30 / 1, avg90 = total90 / 3, avg180 = total180 / 6 and the
combined average the arithmetic mean of the three averages. -/
theorem claim_C3_rolling_matches_spec (raw : List ParsedRow)
    (f : AnalysisFilters) (hany : anyISO raw = true)
    (hTxn : validTxnRaw raw) (hVal : validValRaw raw) :
    (recomputeD raw f).rollingCredit = specRolling raw := by
  show rollingOf raw (endOfDataISO raw) = specRolling raw
  exact rollingOf_eq_spec raw hany hTxn hVal

/-- C3 witness: the concrete instance of the claim — latest transaction
date 2025-06-30, a single credit of 300 value-dated 2025-06-15 — with
total30 = 300, avg30 = 300, avg90 = 100, avg180 = 50, combinedAvg = 150. -/
theorem claim_C3_witness :
    anyISO [rowC1] = true ∧ validTxnRaw [rowC1] ∧ validValRaw [rowC1] ∧
    (recomputeD [rowC1] defaultFilters).rollingCredit = specRolling [rowC1] ∧
    Frac.eqv (specRolling [rowC1]).total30 ⟨300, 1⟩ ∧
    Frac.eqv (specRolling [rowC1]).avg30 ⟨300, 1⟩ ∧
    Frac.eqv (specRolling [rowC1]).avg90 ⟨100, 1⟩ ∧
    Frac.eqv (specRolling [rowC1]).avg180 ⟨50, 1⟩ ∧
    Frac.eqv (specRolling [rowC1]).combinedAvg ⟨150, 1⟩ :=
  ⟨by decide, by decide, by decide,
   claim_C3_rolling_matches_spec [rowC1] defaultFilters (by decide) (by decide)
     (by decide),
   by decide, by decide, by decide, by decide, by decide⟩
